import Mathlib

/-!
Verification of the implicit free-list allocator in `malloc-lab/mm.c`
(first-fit variant commented out; the active search policy is next-fit).

The heap is modelled as byte-addressed memory `Mem : Nat → Nat` together
with the allocator's global state (`mem_brk`, the provider limit,
`heap_listp`, `rover`).  Pointers are natural numbers; the C null pointer
is the address `0`.  The 4-byte word accesses `GET`/`PUT` of `mm.c` are
modelled as little-endian reads/writes of four bytes, truncating stored
values to 32 bits exactly as the C `unsigned int` store does.  Machine
arithmetic on `size_t` never overflows on the reachable states considered
here (all sizes are bounded by the provider limit, which well-formedness
keeps below 2^32), so sizes are plain naturals.

Each function of `mm.c` is translated statement by statement, re-reading
memory exactly where the C code does (this matters in `coalesce` and
`place`, where `FTRP` is evaluated against an already-updated header).
The two search loops of `find_fit` are given explicit fuel; the callers
pass `mem_brk` as fuel, which is proved sufficient on well-formed heaps.
-/

namespace MallocLab

/-- Byte-addressed memory: every address holds a byte value (kept < 256 by writes). -/
def Mem := Nat → Nat

/-- Write one byte (truncated to 8 bits) at address `a`. -/
def writeByte (m : Mem) (a v : Nat) : Mem :=
  fun x => if x = a then v % 256 else m x

/-- GET(p): read the 4-byte little-endian word at `p` (value < 2^32). -/
def GET (m : Mem) (p : Nat) : Nat :=
  m p % 256 + 256 * (m (p + 1) % 256) + 65536 * (m (p + 2) % 256) +
    16777216 * (m (p + 3) % 256)

/-- PUT(p, val): store `val` (truncated to 32 bits) as a 4-byte little-endian word. -/
def PUT (m : Mem) (p v : Nat) : Mem :=
  writeByte (writeByte (writeByte (writeByte m p (v % 4294967296))
    (p + 1) (v % 4294967296 / 256)) (p + 2) (v % 4294967296 / 65536))
    (p + 3) (v % 4294967296 / 16777216)

/-- WSIZE: word / header / footer size in bytes. -/
def WSIZE : Nat := 4

/-- DSIZE: double word, the 8-byte alignment unit. -/
def DSIZE : Nat := 8

/-- CHUNKSIZE: default heap-extension request, 1 <<< 12 bytes. -/
def CHUNKSIZE : Nat := 4096

/-- PACK(size, a) = (size) | (a): pack a block size and an allocation bit into
one word.  Every call site passes an 8-byte-aligned `size` and `a ∈ \x7b0,1\x7d`,
for which bitwise or coincides with addition; we keep the bitwise form. -/
def PACK (size a : Nat) : Nat := size ||| a

/-- GET_SIZE(p) = GET(p) & ~0x7: the stored word with its low three bits
cleared, i.e. rounded down to a multiple of 8 (the word is < 2^32, so the
32-bit mask ~0x7 clears exactly the low three bits). -/
def GET_SIZE (m : Mem) (p : Nat) : Nat :=
  GET m p - GET m p % 8

/-- GET_ALLOC(p) = GET(p) & 0x1: the allocation bit of the stored word. -/
def GET_ALLOC (m : Mem) (p : Nat) : Nat :=
  GET m p % 2

/-- HDRP(bp): address of the header of the block with payload pointer `bp`. -/
def HDRP (bp : Nat) : Nat := bp - WSIZE

/-- FTRP(bp): address of the footer, derived from the size currently stored
in the header. -/
def FTRP (m : Mem) (bp : Nat) : Nat :=
  bp + GET_SIZE m (HDRP bp) - DSIZE

/-- NEXT_BLKP(bp): payload pointer of the following block. -/
def NEXT_BLKP (m : Mem) (bp : Nat) : Nat :=
  bp + GET_SIZE m (HDRP bp)

/-- PREV_BLKP(bp): payload pointer of the preceding block, read from the
preceding block's footer, which sits directly behind this block's header. -/
def PREV_BLKP (m : Mem) (bp : Nat) : Nat :=
  bp - GET_SIZE m (bp - DSIZE)

/-- Allocator state: the heap bytes, the provider break `brk`, the provider
limit `maxAddr`, and the two globals of `mm.c` (`heap_listp`, `rover`). -/
structure St where
  mem : Mem
  brk : Nat
  maxAddr : Nat
  heap_listp : Nat
  rover : Nat

/-- Modelled from the spec: the raw memory provider (`mem_sbrk` of the lab's
`memlib.c`, which is not part of this repository's sources).  Per the spec it
"extends the managed region by a requested byte count and returns the starting
address of the new region, failing when the underlying address space is
exhausted"; `none` models the `(void *)-1` failure, which leaves the region
unchanged. -/
def mem_sbrk (s : St) (incr : Nat) : Option (Nat × St) :=
  if s.brk + incr ≤ s.maxAddr then
    some (s.brk, { s with brk := s.brk + incr })
  else
    none

/-- coalesce(bp): merge the block at `bp` with its free neighbours; returns the
updated state (memory and rover) and the resulting payload pointer.  The
statements are translated in source order; in particular `FTRP` in case 2 is
evaluated against the already-updated header, and `PREV_BLKP` in cases 3 and 4
against the updated memory, exactly as the C macro expansion does. -/
def coalesce (s : St) (bp : Nat) : St × Nat :=
  let m := s.mem
  let prev_alloc := GET_ALLOC m (FTRP m (PREV_BLKP m bp))
  let next_alloc := GET_ALLOC m (HDRP (NEXT_BLKP m bp))
  let size := GET_SIZE m (HDRP bp)
  if prev_alloc ≠ 0 ∧ next_alloc ≠ 0 then
    (s, bp)
  else if prev_alloc ≠ 0 ∧ next_alloc = 0 then
    let size := size + GET_SIZE m (HDRP (NEXT_BLKP m bp))
    let m := PUT m (HDRP bp) (PACK size 0)
    let m := PUT m (FTRP m bp) (PACK size 0)
    ({ s with mem := m, rover := bp }, bp)
  else if prev_alloc = 0 ∧ next_alloc ≠ 0 then
    let size := size + GET_SIZE m (HDRP (PREV_BLKP m bp))
    let m := PUT m (FTRP m bp) (PACK size 0)
    let m := PUT m (HDRP (PREV_BLKP m bp)) (PACK size 0)
    let bp := PREV_BLKP m bp
    ({ s with mem := m, rover := bp }, bp)
  else
    let size := size + GET_SIZE m (HDRP (PREV_BLKP m bp))
      + GET_SIZE m (FTRP m (NEXT_BLKP m bp))
    let m := PUT m (HDRP (PREV_BLKP m bp)) (PACK size 0)
    let m := PUT m (FTRP m (NEXT_BLKP m bp)) (PACK size 0)
    let bp := PREV_BLKP m bp
    ({ s with mem := m, rover := bp }, bp)

/-- extend_heap(words): round the word count up to an even number of words,
request that many bytes from the provider, format the new region as one free
block, write the fresh epilogue header, move the rover to the new block and
coalesce it.  On provider failure returns the untouched state and NULL. -/
def extend_heap (s : St) (words : Nat) : St × Nat :=
  let size := if words % 2 = 1 then (words + 1) * WSIZE else words * WSIZE
  match mem_sbrk s size with
  | none => (s, 0)
  | some (bp, s1) =>
    let m := s1.mem
    let m := PUT m (HDRP bp) (PACK size 0)
    let m := PUT m (FTRP m bp) (PACK size 0)
    let m := PUT m (HDRP (NEXT_BLKP m bp)) (PACK 0 1)
    coalesce { s1 with mem := m, rover := bp } bp

/-- First loop of find_fit: from `bp` (initially the rover) forward while the
header size is positive, stopping at the epilogue; `0` is NULL / not found.
The fuel argument only bounds the number of iterations. -/
def ffScan1 (m : Mem) (asize : Nat) : Nat → Nat → Nat
  | 0, _ => 0
  | fuel + 1, bp =>
    if 0 < GET_SIZE m (HDRP bp) then
      if GET_ALLOC m (HDRP bp) = 0 ∧ asize ≤ GET_SIZE m (HDRP bp) then bp
      else ffScan1 m asize fuel (NEXT_BLKP m bp)
    else 0

/-- Second loop of find_fit: from the first real block forward until `bp`
reaches the rover (exclusive); `0` is NULL / not found. -/
def ffScan2 (m : Mem) (asize rover : Nat) : Nat → Nat → Nat
  | 0, _ => 0
  | fuel + 1, bp =>
    if bp ≠ rover then
      if GET_ALLOC m (HDRP bp) = 0 ∧ asize ≤ GET_SIZE m (HDRP bp) then bp
      else ffScan2 m asize rover fuel (NEXT_BLKP m bp)
    else 0

/-- find_fit(asize), next-fit variant: scan from the rover to the epilogue,
then wrap and scan from the first real block up to (but not including) the
rover.  Reads memory only; returns NULL (0) when nothing fits. -/
def find_fit (s : St) (asize fuel : Nat) : Nat :=
  let r := ffScan1 s.mem asize fuel s.rover
  if r ≠ 0 then r
  else ffScan2 s.mem asize s.rover fuel (NEXT_BLKP s.mem s.heap_listp)

/-- place(bp, asize): put an `asize`-byte allocated block at `bp`; split when
the remainder is at least the 16-byte minimum block size, otherwise absorb the
whole block.  The rover moves to the split remainder, or to the block after
`bp` when no split happens.  (The C `csize - asize` is a `size_t` subtraction;
callers guarantee `asize ≤ csize`, where it agrees with `Nat` subtraction.) -/
def place (s : St) (bp asize : Nat) : St :=
  let m := s.mem
  let csize := GET_SIZE m (HDRP bp)
  if 2 * DSIZE ≤ csize - asize then
    let m := PUT m (HDRP bp) (PACK asize 1)
    let m := PUT m (FTRP m bp) (PACK asize 1)
    let bp := NEXT_BLKP m bp
    let m := PUT m (HDRP bp) (PACK (csize - asize) 0)
    let m := PUT m (FTRP m bp) (PACK (csize - asize) 0)
    { s with mem := m, rover := bp }
  else
    let m := PUT m (HDRP bp) (PACK csize 1)
    let m := PUT m (FTRP m bp) (PACK csize 1)
    { s with mem := m, rover := NEXT_BLKP m bp }

/-- The adjusted block size computed by mm_malloc: requests of at most DSIZE
bytes take the 16-byte minimum block, larger ones take the payload plus 8
bytes of tag overhead rounded up to a multiple of 8. -/
def adjustSize (size : Nat) : Nat :=
  if size ≤ DSIZE then 2 * DSIZE
  else DSIZE * ((size + DSIZE + (DSIZE - 1)) / DSIZE)

/-- mm_malloc(size): 0-byte requests yield NULL; otherwise normalise the size,
search with next-fit (fuel `brk` is enough on well-formed heaps), place on a
hit, and on a miss extend the heap by max(asize, CHUNKSIZE) and place there;
extension failure yields NULL.  Returns the payload pointer and new state. -/
def mm_malloc (s : St) (size : Nat) : Nat × St :=
  if size = 0 then (0, s)
  else
    let asize := adjustSize size
    let bp := find_fit s asize s.brk
    if bp ≠ 0 then (bp, place s bp asize)
    else
      let extendsize := max asize CHUNKSIZE
      let (s1, bp1) := extend_heap s (extendsize / WSIZE)
      if bp1 = 0 then (0, s1)
      else (bp1, place s1 bp1 asize)

/-- mm_free(bp): NULL is a no-op; otherwise mark header and footer free and
coalesce with the neighbours. -/
def mm_free (s : St) (bp : Nat) : St :=
  if bp = 0 then s
  else
    let size := GET_SIZE s.mem (HDRP bp)
    let m := PUT s.mem (HDRP bp) (PACK size 0)
    let m := PUT m (FTRP m bp) (PACK size 0)
    (coalesce { s with mem := m } bp).1

/-- memcpy(dst, src, n): copy `n` bytes; the source and destination regions of
the one call site (`mm_realloc`) do not overlap, so all reads are from the
original memory. -/
def memcpy (m : Mem) (dst src : Nat) : Nat → Mem
  | 0 => m
  | n + 1 => writeByte (memcpy m dst src n) (dst + n) (m (src + n))

/-- mm_realloc(ptr, size): NULL pointer behaves as malloc, zero size as free
returning NULL; otherwise allocate anew (NULL on failure, old block kept),
copy min(old payload size, size) bytes, free the old block. -/
def mm_realloc (s : St) (ptr size : Nat) : Nat × St :=
  if ptr = 0 then mm_malloc s size
  else if size = 0 then (0, mm_free s ptr)
  else
    let (newptr, s1) := mm_malloc s size
    if newptr = 0 then (0, s1)
    else
      let oldsize := GET_SIZE s1.mem (HDRP ptr) - DSIZE
      let copySize := if size < oldsize then size else oldsize
      let s2 := { s1 with mem := memcpy s1.mem newptr ptr copySize }
      let s3 := mm_free s2 ptr
      (newptr, s3)

/-- mm_init: request 4 words, lay out padding, prologue header/footer and
epilogue header, point `heap_listp` at the prologue payload, extend by
CHUNKSIZE bytes and set the rover to the first real block.  Returns the new
state and `false` on failure (-1), `true` on success (0). -/
def mm_init (s : St) : St × Bool :=
  match mem_sbrk s (4 * WSIZE) with
  | none => (s, false)
  | some (p, s1) =>
    let m := PUT s1.mem (p + 0 * WSIZE) 0
    let m := PUT m (p + 1 * WSIZE) (PACK DSIZE 1)
    let m := PUT m (p + 2 * WSIZE) (PACK DSIZE 1)
    let m := PUT m (p + 3 * WSIZE) (PACK 0 1)
    let heap_listp := p + 2 * WSIZE
    let s2 := { s1 with mem := m, heap_listp := heap_listp }
    let (s3, r) := extend_heap s2 (CHUNKSIZE / WSIZE)
    if r = 0 then (s3, false)
    else ({ s3 with rover := NEXT_BLKP s3.mem s3.heap_listp }, true)


theorem writeByte_at (m : Mem) (a v : Nat) : writeByte m a v a = v % 256 := by
  simp [writeByte]

theorem writeByte_ne (m : Mem) (a v x : Nat) (h : x ≠ a) : writeByte m a v x = m x := by
  simp [writeByte, h]

theorem PUT_byte0 (m : Mem) (p v : Nat) : PUT m p v p = v % 4294967296 % 256 := by
  simp [PUT, writeByte]

theorem PUT_byte1 (m : Mem) (p v : Nat) : PUT m p v (p + 1) = v % 4294967296 / 256 % 256 := by
  simp [PUT, writeByte]

theorem PUT_byte2 (m : Mem) (p v : Nat) : PUT m p v (p + 2) = v % 4294967296 / 65536 % 256 := by
  simp [PUT, writeByte]

theorem PUT_byte3 (m : Mem) (p v : Nat) :
    PUT m p v (p + 3) = v % 4294967296 / 16777216 % 256 := by
  simp [PUT, writeByte]

theorem PUT_outside (m : Mem) (p v x : Nat) (h : x < p ∨ p + 4 ≤ x) : PUT m p v x = m x := by
  simp only [PUT]
  rw [writeByte_ne _ _ _ _ (by omega), writeByte_ne _ _ _ _ (by omega),
    writeByte_ne _ _ _ _ (by omega), writeByte_ne _ _ _ _ (by omega)]

theorem GET_lt (m : Mem) (p : Nat) : GET m p < 4294967296 := by
  simp only [GET]; omega

theorem GET_PUT_same (m : Mem) (p v : Nat) : GET (PUT m p v) p = v % 4294967296 := by
  simp only [GET, PUT_byte0, PUT_byte1, PUT_byte2, PUT_byte3]
  omega

theorem GET_PUT_ne (m : Mem) (p v q : Nat) (h : q + 4 ≤ p ∨ p + 4 ≤ q) :
    GET (PUT m p v) q = GET m q := by
  simp only [GET]
  rw [PUT_outside _ _ _ _ (by omega), PUT_outside _ _ _ _ (by omega),
    PUT_outside _ _ _ _ (by omega), PUT_outside _ _ _ _ (by omega)]

theorem GET_congr (m m' : Mem) (p : Nat) (h : ∀ i, i < 4 → m' (p + i) = m (p + i)) :
    GET m' p = GET m p := by
  have h0 := h 0 (by omega)
  have h1 := h 1 (by omega)
  have h2 := h 2 (by omega)
  have h3 := h 3 (by omega)
  simp only [GET]
  simp at h0
  rw [h0, h1, h2, h3]

theorem PACK_eq (sz a : Nat) (h8 : sz % 8 = 0) (ha : a ≤ 1) : PACK sz a = sz + a := by
  unfold PACK
  interval_cases a
  · simp
  · obtain ⟨k, rfl⟩ : ∃ k, sz = 2 * k := ⟨sz / 2, by omega⟩
    have h1 : (1 : Nat) = Nat.bit true 0 := rfl
    have h2 : 2 * k = Nat.bit false k := by simp [Nat.bit_false]
    rw [h2, h1, Nat.lor_bit]
    simp [Nat.bit_true, Nat.bit_false]

theorem GET_PUT_PACK (m : Mem) (p sz a : Nat) (h8 : sz % 8 = 0) (ha : a ≤ 1)
    (hlt : sz + a < 4294967296) : GET (PUT m p (PACK sz a)) p = sz + a := by
  rw [GET_PUT_same, PACK_eq _ _ h8 ha, Nat.mod_eq_of_lt hlt]

theorem GET_SIZE_of_GET (m : Mem) (p sz a : Nat) (h : GET m p = sz + a)
    (h8 : sz % 8 = 0) (ha : a ≤ 1) : GET_SIZE m p = sz := by
  simp only [GET_SIZE, h]; omega

theorem GET_ALLOC_of_GET (m : Mem) (p sz a : Nat) (h : GET m p = sz + a)
    (h8 : sz % 8 = 0) (ha : a ≤ 1) : GET_ALLOC m p = a := by
  simp only [GET_ALLOC, h]; omega

theorem memcpy_outside (m : Mem) (dst src n x : Nat) (h : x < dst ∨ dst + n ≤ x) :
    memcpy m dst src n x = m x := by
  induction n with
  | zero => rfl
  | succ k ih =>
    simp only [memcpy]
    rw [writeByte_ne _ _ _ _ (by omega), ih (by omega)]

theorem memcpy_inside (m : Mem) (dst src n i : Nat) (h : i < n) :
    memcpy m dst src n (dst + i) = m (src + i) % 256 := by
  induction n with
  | zero => omega
  | succ k ih =>
    simp only [memcpy]
    rcases Nat.lt_or_ge i k with hik | hik
    · rw [writeByte_ne _ _ _ _ (by omega), ih hik]
    · have : i = k := by omega
      subst this
      rw [writeByte_at]




/-- Local well-formedness context around a block that coalesce operates on:
the block at `bp` already carries FREE tags of size `sz`; the preceding block
has size `psz` and allocation bit `pa` (its footer sits directly behind `bp`'s
header); the following block starts at `bp + sz` with size `nsz` and
allocation bit `na` (size 0 with bit 1 is the epilogue).  Sizes are 8-byte
aligned, real blocks are at least 16 bytes, addresses do not underflow and
the combined sizes fit in a 32-bit word. -/
structure CoalCtx (m : Mem) (bp psz pa sz nsz na : Nat) : Prop where
  cur_hdr : GET m (bp - 4) = sz
  cur_ftr : GET m (bp + sz - 8) = sz
  cur_min : 16 ≤ sz
  cur_align : sz % 8 = 0
  prev_ftr : GET m (bp - 8) = psz + pa
  prev_hdr : GET m (bp - psz - 4) = psz + pa
  prev_min : 8 ≤ psz
  prev_align : psz % 8 = 0
  pa_bit : pa ≤ 1
  prev_free_min : pa = 0 → 16 ≤ psz
  next_hdr : GET m (bp + sz - 4) = nsz + na
  next_ftr : na = 0 → GET m (bp + sz + nsz - 8) = nsz
  next_align : nsz % 8 = 0
  na_bit : na ≤ 1
  next_free_min : na = 0 → 16 ≤ nsz
  lo_bound : psz + 8 ≤ bp
  hi_bound : psz + sz + nsz + 1 < 4294967296

namespace CoalCtx

variable {m : Mem} {bp psz pa sz nsz na : Nat}

theorem size_read (h : CoalCtx m bp psz pa sz nsz na) : GET_SIZE m (HDRP bp) = sz := by
  have h1 := h.cur_hdr
  have h2 := h.cur_align
  simp only [GET_SIZE, HDRP, WSIZE, h1]
  omega

theorem prev_size_read (h : CoalCtx m bp psz pa sz nsz na) : GET_SIZE m (bp - 8) = psz := by
  have h1 := h.prev_ftr
  have h2 := h.prev_align
  have h3 := h.pa_bit
  simp only [GET_SIZE, h1]
  omega

theorem prev_bp_eq (h : CoalCtx m bp psz pa sz nsz na) : PREV_BLKP m bp = bp - psz := by
  simp only [PREV_BLKP, DSIZE, h.prev_size_read]

theorem prev_hdr_size_read (h : CoalCtx m bp psz pa sz nsz na) :
    GET_SIZE m (bp - psz - 4) = psz := by
  have h1 := h.prev_hdr
  have h2 := h.prev_align
  have h3 := h.pa_bit
  simp only [GET_SIZE, h1]
  omega

theorem prev_ftr_addr (h : CoalCtx m bp psz pa sz nsz na) :
    FTRP m (PREV_BLKP m bp) = bp - 8 := by
  rw [h.prev_bp_eq]
  simp only [FTRP, HDRP, WSIZE, DSIZE]
  rw [h.prev_hdr_size_read]
  have := h.lo_bound
  omega

theorem prev_alloc_read (h : CoalCtx m bp psz pa sz nsz na) :
    GET_ALLOC m (FTRP m (PREV_BLKP m bp)) = pa := by
  rw [h.prev_ftr_addr]
  have h1 := h.prev_ftr
  have h2 := h.prev_align
  have h3 := h.pa_bit
  simp only [GET_ALLOC, h1]
  omega

theorem next_bp_eq (h : CoalCtx m bp psz pa sz nsz na) : NEXT_BLKP m bp = bp + sz := by
  simp only [NEXT_BLKP, h.size_read]

theorem next_size_read (h : CoalCtx m bp psz pa sz nsz na) :
    GET_SIZE m (bp + sz - 4) = nsz := by
  have h1 := h.next_hdr
  have h2 := h.next_align
  have h3 := h.na_bit
  simp only [GET_SIZE, h1]
  omega

theorem next_alloc_read (h : CoalCtx m bp psz pa sz nsz na) :
    GET_ALLOC m (HDRP (NEXT_BLKP m bp)) = na := by
  rw [h.next_bp_eq]
  have h1 := h.next_hdr
  have h2 := h.next_align
  have h3 := h.na_bit
  simp only [HDRP, WSIZE, GET_ALLOC]
  rw [show bp + sz - 4 = bp + sz - 4 from rfl, h1]
  omega

theorem next_ftr_size_read (h : CoalCtx m bp psz pa sz nsz na) (hna : na = 0) :
    GET_SIZE m (bp + sz + nsz - 8) = nsz := by
  have h1 := h.next_ftr hna
  have h2 := h.next_align
  simp only [GET_SIZE, h1]
  omega

end CoalCtx


theorem GET_SIZE_PUT_PACK (m : Mem) (p sz a : Nat) (h8 : sz % 8 = 0) (ha : a ≤ 1)
    (hlt : sz + a < 4294967296) : GET_SIZE (PUT m p (PACK sz a)) p = sz := by
  have := GET_PUT_PACK m p sz a h8 ha hlt
  simp only [GET_SIZE, this]
  omega

theorem coalesce_case1 (s : St) (bp psz sz nsz : Nat)
    (h : CoalCtx s.mem bp psz 1 sz nsz 1) :
    coalesce s bp = (s, bp) := by
  simp only [coalesce, h.prev_alloc_read, h.next_alloc_read]
  norm_num

theorem coalesce_case2 (s : St) (bp psz sz nsz : Nat)
    (h : CoalCtx s.mem bp psz 1 sz nsz 0) :
    coalesce s bp =
      ({ s with
          mem := PUT (PUT s.mem (bp - 4) (PACK (sz + nsz) 0)) (bp + (sz + nsz) - 8)
            (PACK (sz + nsz) 0),
          rover := bp }, bp) := by
  have hnsz : GET_SIZE s.mem (HDRP (NEXT_BLKP s.mem bp)) = nsz := by
    rw [h.next_bp_eq]
    simpa only [HDRP, WSIZE] using h.next_size_read
  have h8 : (sz + nsz) % 8 = 0 := by
    have := h.cur_align; have := h.next_align; omega
  have hlt : sz + nsz + 0 < 4294967296 := by
    have := h.hi_bound; omega
  simp only [coalesce, h.prev_alloc_read, h.next_alloc_read, h.size_read, hnsz]
  norm_num
  simp only [HDRP, WSIZE, FTRP, DSIZE,
    GET_SIZE_PUT_PACK s.mem (bp - 4) (sz + nsz) 0 h8 (by omega) hlt]

theorem coalesce_case3 (s : St) (bp psz sz nsz : Nat)
    (h : CoalCtx s.mem bp psz 0 sz nsz 1) :
    coalesce s bp =
      ({ s with
          mem := PUT (PUT s.mem (bp + sz - 8) (PACK (sz + psz) 0)) (bp - psz - 4)
            (PACK (sz + psz) 0),
          rover := bp - psz }, bp - psz) := by
  have hpsz : GET_SIZE s.mem (HDRP (PREV_BLKP s.mem bp)) = psz := by
    rw [h.prev_bp_eq]
    simpa only [HDRP, WSIZE] using h.prev_hdr_size_read
  have hftr : FTRP s.mem bp = bp + sz - 8 := by
    simp only [FTRP, DSIZE, h.size_read]
  have hprev1 : ∀ v, PREV_BLKP (PUT s.mem (bp + sz - 8) v) bp = bp - psz := by
    intro v
    have hne : GET (PUT s.mem (bp + sz - 8) v) (bp - 8) = GET s.mem (bp - 8) := by
      apply GET_PUT_ne
      have := h.cur_min
      have := h.lo_bound
      omega
    simp only [PREV_BLKP, DSIZE, GET_SIZE, hne, h.prev_ftr]
    have h2 := h.prev_align
    omega
  have hprev2 : ∀ v w, PREV_BLKP (PUT (PUT s.mem (bp + sz - 8) v) (bp - psz - 4) w) bp
      = bp - psz := by
    intro v w
    have hne2 : GET (PUT (PUT s.mem (bp + sz - 8) v) (bp - psz - 4) w) (bp - 8)
        = GET (PUT s.mem (bp + sz - 8) v) (bp - 8) := by
      apply GET_PUT_ne
      have := h.prev_min
      have := h.lo_bound
      omega
    have hne : GET (PUT s.mem (bp + sz - 8) v) (bp - 8) = GET s.mem (bp - 8) := by
      apply GET_PUT_ne
      have := h.cur_min
      have := h.lo_bound
      omega
    simp only [PREV_BLKP, DSIZE, GET_SIZE, hne2, hne, h.prev_ftr]
    have h2 := h.prev_align
    omega
  simp only [coalesce, h.prev_alloc_read, h.next_alloc_read, h.size_read, hpsz]
  norm_num
  rw [hftr, hprev1]
  simp only [HDRP, WSIZE]
  rw [hprev2]
  exact ⟨trivial, rfl⟩

theorem coalesce_case4 (s : St) (bp psz sz nsz : Nat)
    (h : CoalCtx s.mem bp psz 0 sz nsz 0) :
    coalesce s bp =
      ({ s with
          mem := PUT (PUT s.mem (bp - psz - 4) (PACK (sz + psz + nsz) 0)) (bp + sz + nsz - 8)
            (PACK (sz + psz + nsz) 0),
          rover := bp - psz }, bp - psz) := by
  have hpsz : GET_SIZE s.mem (HDRP (PREV_BLKP s.mem bp)) = psz := by
    rw [h.prev_bp_eq]
    simpa only [HDRP, WSIZE] using h.prev_hdr_size_read
  have hnftr : FTRP s.mem (NEXT_BLKP s.mem bp) = bp + sz + nsz - 8 := by
    rw [h.next_bp_eq]
    simp only [FTRP, HDRP, WSIZE, DSIZE]
    rw [h.next_size_read]
  have hnsz2 : GET_SIZE s.mem (FTRP s.mem (NEXT_BLKP s.mem bp)) = nsz := by
    rw [hnftr]
    exact h.next_ftr_size_read rfl
  have hnext1 : ∀ v, NEXT_BLKP (PUT s.mem (bp - psz - 4) v) bp = bp + sz := by
    intro v
    have hne : GET (PUT s.mem (bp - psz - 4) v) (bp - 4) = GET s.mem (bp - 4) := by
      apply GET_PUT_ne
      have := h.prev_min
      have := h.lo_bound
      omega
    simp only [NEXT_BLKP, HDRP, WSIZE, GET_SIZE, hne, h.cur_hdr]
    have := h.cur_align
    omega
  have hnftr1 : ∀ v, FTRP (PUT s.mem (bp - psz - 4) v) (bp + sz) = bp + sz + nsz - 8 := by
    intro v
    have hne : GET (PUT s.mem (bp - psz - 4) v) (bp + sz - 4) = GET s.mem (bp + sz - 4) := by
      apply GET_PUT_ne
      have := h.prev_min
      have := h.lo_bound
      have := h.cur_min
      omega
    simp only [FTRP, HDRP, WSIZE, DSIZE, GET_SIZE]
    rw [show bp + sz - 4 = bp + sz - 4 from rfl, hne, h.next_hdr]
    have := h.next_align
    have := h.cur_min
    omega
  have hprev2 : ∀ v w, PREV_BLKP (PUT (PUT s.mem (bp - psz - 4) v) (bp + sz + nsz - 8) w) bp
      = bp - psz := by
    intro v w
    have hne2 : GET (PUT (PUT s.mem (bp - psz - 4) v) (bp + sz + nsz - 8) w) (bp - 8)
        = GET (PUT s.mem (bp - psz - 4) v) (bp - 8) := by
      apply GET_PUT_ne
      have := h.cur_min
      have := h.next_free_min rfl
      have := h.lo_bound
      omega
    have hne : GET (PUT s.mem (bp - psz - 4) v) (bp - 8) = GET s.mem (bp - 8) := by
      apply GET_PUT_ne
      have := h.prev_min
      have := h.lo_bound
      omega
    simp only [PREV_BLKP, DSIZE, GET_SIZE, hne2, hne, h.prev_ftr]
    have h2 := h.prev_align
    omega
  simp only [coalesce, h.prev_alloc_read, h.next_alloc_read, h.size_read, hpsz, hnsz2]
  norm_num
  rw [h.prev_bp_eq]
  simp only [HDRP, WSIZE]
  rw [hnext1, hnftr1, hprev2]
  exact ⟨rfl, rfl⟩


theorem GET_outer_ne_PUT (m : Mem) (p v q w r : Nat) (h : r + 4 ≤ q ∨ q + 4 ≤ r) :
    GET (PUT (PUT m p v) q w) r = GET (PUT m p v) r :=
  GET_PUT_ne _ _ _ _ (by omega)

/-- C2: on a locally well-formed heap neighbourhood, `coalesce` follows exactly
the four-case analysis of the allocation bits `pa` of the preceding and `na`
of the following block (both bits are 0 or 1, so the four conjuncts are
mutually exclusive and exhaustive): both allocated returns the block and state
unchanged; only the next free absorbs forward; only the previous free absorbs
backward returning the preceding payload pointer; both free merges all three
blocks, placing the combined header at the preceding block's header address
and the combined footer at the following block's old footer address, and in
every merge case both resulting tags carry the combined size with a clear
(FREE) allocation bit. -/
theorem C2_coalesce_four_cases (s : St) (bp psz pa sz nsz na : Nat)
    (h : CoalCtx s.mem bp psz pa sz nsz na) :
    (pa = 1 ∧ na = 1 → coalesce s bp = (s, bp)) ∧
    (pa = 1 ∧ na = 0 →
      (coalesce s bp).2 = bp ∧
      (coalesce s bp).1.mem =
        PUT (PUT s.mem (bp - 4) (PACK (sz + nsz) 0)) (bp + (sz + nsz) - 8)
          (PACK (sz + nsz) 0) ∧
      GET (coalesce s bp).1.mem (bp - 4) = sz + nsz ∧
      GET (coalesce s bp).1.mem (bp + (sz + nsz) - 8) = sz + nsz) ∧
    (pa = 0 ∧ na = 1 →
      (coalesce s bp).2 = bp - psz ∧
      (coalesce s bp).1.mem =
        PUT (PUT s.mem (bp + sz - 8) (PACK (sz + psz) 0)) (bp - psz - 4)
          (PACK (sz + psz) 0) ∧
      GET (coalesce s bp).1.mem (bp - psz - 4) = sz + psz ∧
      GET (coalesce s bp).1.mem (bp + sz - 8) = sz + psz) ∧
    (pa = 0 ∧ na = 0 →
      (coalesce s bp).2 = bp - psz ∧
      (coalesce s bp).1.mem =
        PUT (PUT s.mem (bp - psz - 4) (PACK (sz + psz + nsz) 0)) (bp + sz + nsz - 8)
          (PACK (sz + psz + nsz) 0) ∧
      GET (coalesce s bp).1.mem (bp - psz - 4) = sz + psz + nsz ∧
      GET (coalesce s bp).1.mem (bp + sz + nsz - 8) = sz + psz + nsz) := by
  have hmin := h.cur_min
  have hpmin := h.prev_min
  have hlo := h.lo_bound
  have hhi := h.hi_bound
  have hca := h.cur_align
  have hna := h.next_align
  have hpa := h.prev_align
  refine ⟨?_, ?_, ?_, ?_⟩
  · rintro ⟨rfl, rfl⟩
    exact coalesce_case1 s bp psz sz nsz h
  · rintro ⟨rfl, rfl⟩
    have hnmin := h.next_free_min rfl
    rw [coalesce_case2 s bp psz sz nsz h]
    refine ⟨rfl, rfl, ?_, ?_⟩
    · rw [GET_outer_ne_PUT _ _ _ _ _ _ (by omega),
        GET_PUT_PACK _ _ _ _ (by omega) (by omega) (by omega)]
      omega
    · rw [GET_PUT_PACK _ _ _ _ (by omega) (by omega) (by omega)]
      omega
  · rintro ⟨rfl, rfl⟩
    have hpfmin := h.prev_free_min rfl
    rw [coalesce_case3 s bp psz sz nsz h]
    refine ⟨rfl, rfl, ?_, ?_⟩
    · rw [GET_PUT_PACK _ _ _ _ (by omega) (by omega) (by omega)]
      omega
    · rw [GET_outer_ne_PUT _ _ _ _ _ _ (by omega),
        GET_PUT_PACK _ _ _ _ (by omega) (by omega) (by omega)]
      omega
  · rintro ⟨rfl, rfl⟩
    have hpfmin := h.prev_free_min rfl
    have hnmin := h.next_free_min rfl
    rw [coalesce_case4 s bp psz sz nsz h]
    refine ⟨rfl, rfl, ?_, ?_⟩
    · rw [GET_outer_ne_PUT _ _ _ _ _ _ (by omega),
        GET_PUT_PACK _ _ _ _ (by omega) (by omega) (by omega)]
      omega
    · rw [GET_PUT_PACK _ _ _ _ (by omega) (by omega) (by omega)]
      omega

/-- Concrete heap neighbourhood for exercising coalesce: three adjacent
16-byte free blocks at payload addresses 24, 40 and 56. -/
def coalWitnessSt : St :=
  { mem := PUT (PUT (PUT (PUT (PUT (PUT (fun _ => 0) 20 16) 32 16) 36 16) 48 16) 52 16) 64 16
    brk := 100
    maxAddr := 1000
    heap_listp := 16
    rover := 24 }

theorem coalWitnessCtx : CoalCtx coalWitnessSt.mem 40 16 0 16 16 0 := by
  constructor <;> decide

/-- Witness for C2 at a concrete both-neighbours-free heap: the merged block
is returned at the preceding block's payload pointer 24 and both tags hold
the combined size 48, free. -/
theorem C2_witness :
    (coalesce coalWitnessSt 40).2 = 40 - 16 ∧
    GET (coalesce coalWitnessSt 40).1.mem (40 - 16 - 4) = 16 + 16 + 16 := by
  have h := (C2_coalesce_four_cases coalWitnessSt 40 16 0 16 16 0 coalWitnessCtx).2.2.2
    ⟨rfl, rfl⟩
  exact ⟨h.1, h.2.2.1⟩


/-- C4: placing an already-rounded request `asize` into a FREE block of size
`csize ≥ asize` splits exactly when the remainder is at least the 16-byte
minimum block size, marking the first `asize` bytes allocated with matching
header/footer and formatting the remainder as a fresh FREE block with its own
tags immediately after; otherwise the whole block is marked allocated.  After
a split the rover points at the remainder, otherwise at the block following
the placed block. -/
theorem C4_place_split (s : St) (bp asize csize : Nat)
    (hhdr : GET s.mem (bp - 4) = csize)
    (hca : csize % 8 = 0) (ha : asize % 8 = 0) (hamin : 16 ≤ asize)
    (hle : asize ≤ csize) (hbp : 8 ≤ bp) (hhi : csize + 1 < 4294967296) :
    (16 ≤ csize - asize →
      place s bp asize =
        { s with
            mem := PUT (PUT (PUT (PUT s.mem (bp - 4) (PACK asize 1)) (bp + asize - 8)
              (PACK asize 1)) (bp + asize - 4) (PACK (csize - asize) 0)) (bp + csize - 8)
              (PACK (csize - asize) 0),
            rover := bp + asize } ∧
      GET (place s bp asize).mem (bp - 4) = asize + 1 ∧
      GET (place s bp asize).mem (bp + asize - 8) = asize + 1 ∧
      GET (place s bp asize).mem (bp + asize - 4) = csize - asize ∧
      GET (place s bp asize).mem (bp + csize - 8) = csize - asize) ∧
    (csize - asize < 16 →
      place s bp asize =
        { s with
            mem := PUT (PUT s.mem (bp - 4) (PACK csize 1)) (bp + csize - 8) (PACK csize 1),
            rover := bp + csize } ∧
      GET (place s bp asize).mem (bp - 4) = csize + 1 ∧
      GET (place s bp asize).mem (bp + csize - 8) = csize + 1) := by
  have hsz : GET_SIZE s.mem (HDRP bp) = csize := by
    simp only [GET_SIZE, HDRP, WSIZE, hhdr]
    omega
  constructor
  · intro hrem
    have heq : place s bp asize =
        { s with
            mem := PUT (PUT (PUT (PUT s.mem (bp - 4) (PACK asize 1)) (bp + asize - 8)
              (PACK asize 1)) (bp + asize - 4) (PACK (csize - asize) 0)) (bp + csize - 8)
              (PACK (csize - asize) 0),
            rover := bp + asize } := by
      have hftr1 : ∀ v, FTRP (PUT s.mem (bp - 4) v) bp
          = bp + GET_SIZE (PUT s.mem (bp - 4) v) (bp - 4) - 8 := by
        intro v
        simp only [FTRP, HDRP, WSIZE, DSIZE]
      have hs1 : GET_SIZE (PUT s.mem (bp - 4) (PACK asize 1)) (bp - 4) = asize :=
        GET_SIZE_PUT_PACK _ _ _ _ (by omega) (by omega) (by omega)
      have hnext2 : NEXT_BLKP (PUT (PUT s.mem (bp - 4) (PACK asize 1)) (bp + asize - 8)
          (PACK asize 1)) bp = bp + asize := by
        have hne : GET (PUT (PUT s.mem (bp - 4) (PACK asize 1)) (bp + asize - 8)
            (PACK asize 1)) (bp - 4) = GET (PUT s.mem (bp - 4) (PACK asize 1)) (bp - 4) :=
          GET_PUT_ne _ _ _ _ (by omega)
        simp only [NEXT_BLKP, HDRP, WSIZE, GET_SIZE, hne]
        rw [GET_PUT_PACK _ _ _ _ (by omega) (by omega) (by omega)]
        omega
      have hftr3 : ∀ w, FTRP (PUT (PUT (PUT s.mem (bp - 4) (PACK asize 1)) (bp + asize - 8)
          (PACK asize 1)) (bp + asize - 4) w) (bp + asize)
          = bp + asize + GET_SIZE (PUT (PUT (PUT s.mem (bp - 4) (PACK asize 1))
            (bp + asize - 8) (PACK asize 1)) (bp + asize - 4) w) (bp + asize - 4) - 8 := by
        intro w
        simp only [FTRP, HDRP, WSIZE, DSIZE]
      simp only [place, hsz]
      rw [if_pos (by simp only [DSIZE]; omega)]
      simp only [HDRP, WSIZE]
      rw [hftr1, hs1, hnext2]
      rw [hftr3, GET_SIZE_PUT_PACK _ _ _ _ (by omega) (by omega) (by omega)]
      have : bp + asize + (csize - asize) - 8 = bp + csize - 8 := by omega
      rw [this]
    refine ⟨heq, ?_, ?_, ?_, ?_⟩ <;> rw [heq]
    · rw [GET_outer_ne_PUT _ _ _ _ _ _ (by omega), GET_outer_ne_PUT _ _ _ _ _ _ (by omega),
        GET_outer_ne_PUT _ _ _ _ _ _ (by omega),
        GET_PUT_PACK _ _ _ _ (by omega) (by omega) (by omega)]
    · rw [GET_outer_ne_PUT _ _ _ _ _ _ (by omega), GET_outer_ne_PUT _ _ _ _ _ _ (by omega),
        GET_PUT_PACK _ _ _ _ (by omega) (by omega) (by omega)]
    · rw [GET_outer_ne_PUT _ _ _ _ _ _ (by omega),
        GET_PUT_PACK _ _ _ _ (by omega) (by omega) (by omega)]
      omega
    · rw [GET_PUT_PACK _ _ _ _ (by omega) (by omega) (by omega)]
      omega
  · intro hrem
    have heq : place s bp asize =
        { s with
            mem := PUT (PUT s.mem (bp - 4) (PACK csize 1)) (bp + csize - 8) (PACK csize 1),
            rover := bp + csize } := by
      have hftr1 : ∀ v, FTRP (PUT s.mem (bp - 4) v) bp
          = bp + GET_SIZE (PUT s.mem (bp - 4) v) (bp - 4) - 8 := by
        intro v
        simp only [FTRP, HDRP, WSIZE, DSIZE]
      have hs1 : GET_SIZE (PUT s.mem (bp - 4) (PACK csize 1)) (bp - 4) = csize :=
        GET_SIZE_PUT_PACK _ _ _ _ (by omega) (by omega) (by omega)
      have hnext2 : NEXT_BLKP (PUT (PUT s.mem (bp - 4) (PACK csize 1)) (bp + csize - 8)
          (PACK csize 1)) bp = bp + csize := by
        have hne : GET (PUT (PUT s.mem (bp - 4) (PACK csize 1)) (bp + csize - 8)
            (PACK csize 1)) (bp - 4) = GET (PUT s.mem (bp - 4) (PACK csize 1)) (bp - 4) :=
          GET_PUT_ne _ _ _ _ (by omega)
        simp only [NEXT_BLKP, HDRP, WSIZE, GET_SIZE, hne]
        rw [GET_PUT_PACK _ _ _ _ (by omega) (by omega) (by omega)]
        omega
      simp only [place, hsz]
      rw [if_neg (by simp only [DSIZE]; omega)]
      simp only [HDRP, WSIZE]
      rw [hftr1, hs1, hnext2]
    refine ⟨heq, ?_, ?_⟩ <;> rw [heq]
    · rw [GET_outer_ne_PUT _ _ _ _ _ _ (by omega),
        GET_PUT_PACK _ _ _ _ (by omega) (by omega) (by omega)]
    · rw [GET_PUT_PACK _ _ _ _ (by omega) (by omega) (by omega)]

/-- Concrete state for exercising place: one FREE block of size 32 at payload
address 24 (header at 20). -/
def placeWitnessSt : St :=
  { mem := PUT (PUT (fun _ => 0) 20 32 ) 48 32
    brk := 100
    maxAddr := 1000
    heap_listp := 16
    rover := 24 }

/-- Witness for C4: placing 16 bytes into the free 32-byte block at 24 splits
it, leaving an allocated 16-byte block and a free 16-byte remainder, with the
rover on the remainder. -/
theorem C4_witness :
    place placeWitnessSt 24 16 =
      { placeWitnessSt with
          mem := PUT (PUT (PUT (PUT placeWitnessSt.mem (24 - 4) (PACK 16 1)) (24 + 16 - 8)
            (PACK 16 1)) (24 + 16 - 4) (PACK (32 - 16) 0)) (24 + 32 - 8)
            (PACK (32 - 16) 0),
          rover := 24 + 16 } :=
  ((C4_place_split placeWitnessSt 24 16 32 (by decide) (by decide) (by decide) (by decide)
    (by decide) (by decide) (by decide)).1 (by decide)).1


theorem GET_PUT2_outside (m : Mem) (p v q w r : Nat) (h1 : r + 4 ≤ p ∨ p + 4 ≤ r)
    (h2 : r + 4 ≤ q ∨ q + 4 ≤ r) : GET (PUT (PUT m p v) q w) r = GET m r := by
  rw [GET_PUT_ne _ _ _ _ (by omega), GET_PUT_ne _ _ _ _ (by omega)]

/-- Facts about the blocks one step beyond the immediate neighbours of `bp`:
when the preceding block is free, the block before it is allocated with size
`ppsz`; when the following block is free, the block after it is allocated with
size `nnsz` (possibly the epilogue, size 0).  These hold on any heap whose
free invariant held before `bp`'s tags were flipped to FREE. -/
structure CoalOuter (m : Mem) (bp psz pa sz nsz na ppsz nnsz : Nat) : Prop where
  pp_ftr : pa = 0 → GET m (bp - psz - 8) = ppsz + 1
  pp_hdr : pa = 0 → GET m (bp - psz - ppsz - 4) = ppsz + 1
  pp_min : 8 ≤ ppsz
  pp_align : ppsz % 8 = 0
  pp_lo : pa = 0 → ppsz + 8 ≤ bp - psz
  nn_hdr : na = 0 → GET m (bp + sz + nsz - 4) = nnsz + 1
  nn_align : nnsz % 8 = 0
  big : ppsz + psz + sz + nsz + nnsz + 1 < 4294967296

/-- C9: coalesce is idempotent.  On a locally well-formed neighbourhood whose
outer blocks satisfy the free invariant, both neighbours of the block that
coalesce returns are ALLOCATED, so running coalesce again on its own result
takes the no-change case and returns state and pointer unchanged. -/
theorem C9_coalesce_idempotent (s : St) (bp psz pa sz nsz na ppsz nnsz : Nat)
    (h : CoalCtx s.mem bp psz pa sz nsz na)
    (ho : CoalOuter s.mem bp psz pa sz nsz na ppsz nnsz) :
    coalesce (coalesce s bp).1 (coalesce s bp).2 = coalesce s bp := by
  have hmin := h.cur_min
  have hpmin := h.prev_min
  have hlo := h.lo_bound
  have hhi := h.hi_bound
  have hca := h.cur_align
  have hnal := h.next_align
  have hpal := h.prev_align
  have hppm := ho.pp_min
  have hppa := ho.pp_align
  have hnna := ho.nn_align
  have hbig := ho.big
  have hpa1 := h.pa_bit
  have hna1 := h.na_bit
  rcases Nat.le_one_iff_eq_zero_or_eq_one.1 h.pa_bit with hpa | hpa <;>
    rcases Nat.le_one_iff_eq_zero_or_eq_one.1 h.na_bit with hna | hna
  · -- case 4: both free
    subst hpa; subst hna
    have hpf := h.prev_free_min rfl
    have hnf := h.next_free_min rfl
    have hpplo := ho.pp_lo rfl
    rw [coalesce_case4 s bp psz sz nsz h]
    have hctx : CoalCtx (PUT (PUT s.mem (bp - psz - 4) (PACK (sz + psz + nsz) 0))
        (bp + sz + nsz - 8) (PACK (sz + psz + nsz) 0)) (bp - psz) ppsz 1
        (sz + psz + nsz) nnsz 1 := by
      constructor
      case cur_hdr =>
        rw [GET_outer_ne_PUT _ _ _ _ _ _ (by omega),
          GET_PUT_PACK _ _ _ _ (by omega) (by omega) (by omega)]
        omega
      case cur_ftr =>
        have e : bp - psz + (sz + psz + nsz) - 8 = bp + sz + nsz - 8 := by omega
        rw [e, GET_PUT_PACK _ _ _ _ (by omega) (by omega) (by omega)]
        omega
      case cur_min => omega
      case cur_align => omega
      case prev_ftr =>
        rw [GET_PUT2_outside _ _ _ _ _ _ (by omega) (by omega)]
        exact ho.pp_ftr rfl
      case prev_hdr =>
        have e : bp - psz - ppsz - 4 = bp - psz - ppsz - 4 := rfl
        rw [GET_PUT2_outside _ _ _ _ _ _ (by omega) (by omega)]
        exact ho.pp_hdr rfl
      case prev_min => omega
      case prev_align => omega
      case pa_bit => omega
      case prev_free_min => omega
      case next_hdr =>
        have e : bp - psz + (sz + psz + nsz) - 4 = bp + sz + nsz - 4 := by omega
        rw [e, GET_PUT2_outside _ _ _ _ _ _ (by omega) (by omega)]
        exact ho.nn_hdr rfl
      case next_ftr => omega
      case next_align => omega
      case na_bit => omega
      case next_free_min => omega
      case lo_bound => omega
      case hi_bound => omega
    exact coalesce_case1 _ _ _ _ _ hctx
  · -- case 3: only previous free
    subst hpa; subst hna
    have hpf := h.prev_free_min rfl
    have hpplo := ho.pp_lo rfl
    rw [coalesce_case3 s bp psz sz nsz h]
    have hctx : CoalCtx (PUT (PUT s.mem (bp + sz - 8) (PACK (sz + psz) 0))
        (bp - psz - 4) (PACK (sz + psz) 0)) (bp - psz) ppsz 1 (sz + psz) nsz 1 := by
      constructor
      case cur_hdr =>
        rw [GET_PUT_PACK _ _ _ _ (by omega) (by omega) (by omega)]
        omega
      case cur_ftr =>
        have e : bp - psz + (sz + psz) - 8 = bp + sz - 8 := by omega
        rw [e, GET_outer_ne_PUT _ _ _ _ _ _ (by omega),
          GET_PUT_PACK _ _ _ _ (by omega) (by omega) (by omega)]
        omega
      case cur_min => omega
      case cur_align => omega
      case prev_ftr =>
        rw [GET_PUT2_outside _ _ _ _ _ _ (by omega) (by omega)]
        exact ho.pp_ftr rfl
      case prev_hdr =>
        rw [GET_PUT2_outside _ _ _ _ _ _ (by omega) (by omega)]
        exact ho.pp_hdr rfl
      case prev_min => omega
      case prev_align => omega
      case pa_bit => omega
      case prev_free_min => omega
      case next_hdr =>
        have e : bp - psz + (sz + psz) - 4 = bp + sz - 4 := by omega
        rw [e, GET_PUT2_outside _ _ _ _ _ _ (by omega) (by omega)]
        have := h.next_hdr
        omega
      case next_ftr => omega
      case next_align => omega
      case na_bit => omega
      case next_free_min => omega
      case lo_bound => omega
      case hi_bound => omega
    exact coalesce_case1 _ _ _ _ _ hctx
  · -- case 2: only next free
    subst hpa; subst hna
    have hnf := h.next_free_min rfl
    rw [coalesce_case2 s bp psz sz nsz h]
    have hctx : CoalCtx (PUT (PUT s.mem (bp - 4) (PACK (sz + nsz) 0))
        (bp + (sz + nsz) - 8) (PACK (sz + nsz) 0)) bp psz 1 (sz + nsz) nnsz 1 := by
      constructor
      case cur_hdr =>
        rw [GET_outer_ne_PUT _ _ _ _ _ _ (by omega),
          GET_PUT_PACK _ _ _ _ (by omega) (by omega) (by omega)]
        omega
      case cur_ftr =>
        rw [GET_PUT_PACK _ _ _ _ (by omega) (by omega) (by omega)]
        omega
      case cur_min => omega
      case cur_align => omega
      case prev_ftr =>
        rw [GET_PUT2_outside _ _ _ _ _ _ (by omega) (by omega)]
        have := h.prev_ftr
        omega
      case prev_hdr =>
        rw [GET_PUT2_outside _ _ _ _ _ _ (by omega) (by omega)]
        have := h.prev_hdr
        omega
      case prev_min => omega
      case prev_align => omega
      case pa_bit => omega
      case prev_free_min => omega
      case next_hdr =>
        have e : bp + (sz + nsz) - 4 = bp + sz + nsz - 4 := by omega
        rw [e, GET_PUT2_outside _ _ _ _ _ _ (by omega) (by omega)]
        exact ho.nn_hdr rfl
      case next_ftr => omega
      case next_align => omega
      case na_bit => omega
      case next_free_min => omega
      case lo_bound => omega
      case hi_bound => omega
    exact coalesce_case1 _ _ _ _ _ hctx
  · -- case 1: both allocated
    subst hpa; subst hna
    rw [coalesce_case1 s bp psz sz nsz h]
    exact coalesce_case1 s bp psz sz nsz h

/-- Concrete heap for the idempotence witness: an allocated 8-byte sentinel,
three adjacent 16-byte FREE blocks at 24, 40, 56, then the epilogue. -/
def idemWitnessSt : St :=
  { mem := PUT (PUT (PUT (PUT (PUT (PUT (PUT (PUT (PUT (fun _ => 0) 12 9) 16 9) 20 16) 32 16)
      36 16) 48 16) 52 16) 64 16) 68 1
    brk := 72
    maxAddr := 1000
    heap_listp := 16
    rover := 24 }

/-- Witness for C9 at a concrete both-neighbours-free heap. -/
theorem C9_witness :
    coalesce (coalesce idemWitnessSt 40).1 (coalesce idemWitnessSt 40).2 =
      coalesce idemWitnessSt 40 :=
  C9_coalesce_idempotent idemWitnessSt 40 16 0 16 16 0 8 0
    (by constructor <;> decide) (by constructor <;> decide)

theorem coalesce_frame (s : St) (bp : Nat) :
    (coalesce s bp).1.brk = s.brk ∧ (coalesce s bp).1.maxAddr = s.maxAddr ∧
      (coalesce s bp).1.heap_listp = s.heap_listp := by
  simp only [coalesce]
  split_ifs <;> exact ⟨rfl, rfl, rfl⟩

theorem div_mul_even (n : Nat) (h : n % 8 = 0) :
    (if n / 4 % 2 = 1 then (n / 4 + 1) * 4 else n / 4 * 4) = n := by
  split_ifs <;> omega

/-- adjustSize is 8-byte aligned. -/
theorem adjustSize_align (size : Nat) : adjustSize size % 8 = 0 := by
  simp only [adjustSize, DSIZE]
  split_ifs <;> omega

theorem extend_heap_fail (s : St) (n : Nat) (h8 : n % 8 = 0)
    (hf : s.maxAddr < s.brk + n) : extend_heap s (n / WSIZE) = (s, 0) := by
  simp only [extend_heap, WSIZE, div_mul_even n h8, mem_sbrk, if_neg (by omega : ¬ s.brk + n ≤ s.maxAddr)]

theorem extend_heap_succ (s : St) (n : Nat) (h8 : n % 8 = 0)
    (hok : s.brk + n ≤ s.maxAddr) :
    (extend_heap s (n / WSIZE)).1.brk = s.brk + n ∧
    (extend_heap s (n / WSIZE)).1.maxAddr = s.maxAddr ∧
    (extend_heap s (n / WSIZE)).1.heap_listp = s.heap_listp := by
  simp only [extend_heap, WSIZE, div_mul_even n h8, mem_sbrk, if_pos hok]
  exact ⟨(coalesce_frame _ _).1, (coalesce_frame _ _).2.1, (coalesce_frame _ _).2.2⟩

theorem mm_malloc_fail_eq (s : St) (size : Nat) (h0 : size ≠ 0)
    (hmiss : find_fit s (adjustSize size) s.brk = 0)
    (hfail : s.maxAddr < s.brk + max (adjustSize size) CHUNKSIZE) :
    mm_malloc s size = (0, s) := by
  have halign : max (adjustSize size) CHUNKSIZE % 8 = 0 := by
    have h1 := adjustSize_align size
    simp only [CHUNKSIZE]
    omega
  have hext := extend_heap_fail s (max (adjustSize size) CHUNKSIZE) halign (by omega)
  simp only [mm_malloc, h0, hmiss, hext]
  norm_num

/-- C7: when the locator finds nothing, mm_malloc extends the heap by
max(asize, CHUNKSIZE) bytes — at least the needed block size and at least the
4096-byte default chunk — and places into the block the extension returns;
if the provider cannot grant that growth, mm_malloc returns NULL with the
state untouched (no placement happens). -/
theorem C7_malloc_miss (s : St) (size : Nat) (h0 : size ≠ 0)
    (hmiss : find_fit s (adjustSize size) s.brk = 0) :
    (adjustSize size ≤ max (adjustSize size) CHUNKSIZE ∧
      CHUNKSIZE ≤ max (adjustSize size) CHUNKSIZE) ∧
    (s.maxAddr < s.brk + max (adjustSize size) CHUNKSIZE →
      mm_malloc s size = (0, s)) ∧
    (s.brk + max (adjustSize size) CHUNKSIZE ≤ s.maxAddr →
      (extend_heap s (max (adjustSize size) CHUNKSIZE / WSIZE)).1.brk
          = s.brk + max (adjustSize size) CHUNKSIZE ∧
      ((extend_heap s (max (adjustSize size) CHUNKSIZE / WSIZE)).2 ≠ 0 →
        mm_malloc s size =
          ((extend_heap s (max (adjustSize size) CHUNKSIZE / WSIZE)).2,
            place (extend_heap s (max (adjustSize size) CHUNKSIZE / WSIZE)).1
              (extend_heap s (max (adjustSize size) CHUNKSIZE / WSIZE)).2
              (adjustSize size)))) := by
  have halign : max (adjustSize size) CHUNKSIZE % 8 = 0 := by
    have h1 := adjustSize_align size
    simp only [CHUNKSIZE]
    omega
  refine ⟨⟨Nat.le_max_left _ _, Nat.le_max_right _ _⟩, ?_, ?_⟩
  · intro hfail
    exact mm_malloc_fail_eq s size h0 hmiss hfail
  · intro hok
    refine ⟨(extend_heap_succ s _ halign hok).1, ?_⟩
    intro hne
    rcases hext : extend_heap s (max (adjustSize size) CHUNKSIZE / WSIZE) with ⟨s1, bp1⟩
    rw [hext] at hne
    simp only [] at hne
    simp only [mm_malloc, h0, hmiss, hext]
    norm_num [hne]

/-- Concrete heap with no free block (prologue, one allocated 16-byte block,
epilogue) whose provider limit equals the current break, so any extension
request fails. -/
def missWitnessSt : St :=
  { mem := PUT (PUT (PUT (PUT (PUT (fun _ => 0) 12 9) 16 9) 20 17) 32 17) 36 1
    brk := 40
    maxAddr := 40
    heap_listp := 16
    rover := 24 }

/-- Witness for C7 (failure side): on the full heap, a 24-byte request misses,
the provider refuses the max(32, 4096)-byte extension, and malloc yields NULL
with the state untouched. -/
theorem C7_witness : mm_malloc missWitnessSt 24 = (0, missWitnessSt) :=
  (C7_malloc_miss missWitnessSt 24 (by decide) (by decide)).2.1 (by decide)

/-- C10: when the allocation inside mm_realloc fails (the locator misses and
the provider refuses the extension), realloc returns NULL and the entire
state — in particular the old block's tags and payload bytes — is unchanged;
the old block is not freed on this path. -/
theorem C10_realloc_fail_keeps_old (s : St) (ptr size : Nat) (hp : ptr ≠ 0)
    (hs : size ≠ 0) (hmiss : find_fit s (adjustSize size) s.brk = 0)
    (hfail : s.maxAddr < s.brk + max (adjustSize size) CHUNKSIZE) :
    mm_realloc s ptr size = (0, s) := by
  have hm := mm_malloc_fail_eq s size hs hmiss hfail
  simp only [mm_realloc, hp, hs, hm]
  norm_num

/-- Witness for C10: resizing the allocated block at 24 on the full heap
fails and leaves the state untouched. -/
theorem C10_witness : mm_realloc missWitnessSt 24 24 = (0, missWitnessSt) :=
  C10_realloc_fail_keeps_old missWitnessSt 24 24 (by decide) (by decide) (by decide) (by decide)

/-- All stored values are bytes; every write maintains this and the initial
memories considered are byte-valued. -/
def ByteMem (m : Mem) : Prop := ∀ a, m a < 256

theorem ByteMem_writeByte (m : Mem) (p v : Nat) (h : ByteMem m) :
    ByteMem (writeByte m p v) := by
  intro a
  simp only [writeByte]
  split_ifs
  · omega
  · exact h a

theorem ByteMem_PUT (m : Mem) (p v : Nat) (h : ByteMem m) : ByteMem (PUT m p v) := by
  simp only [PUT]
  exact ByteMem_writeByte _ _ _ (ByteMem_writeByte _ _ _ (ByteMem_writeByte _ _ _
    (ByteMem_writeByte _ _ _ h)))

theorem ByteMem_coalesce (s : St) (bp : Nat) (h : ByteMem s.mem) :
    ByteMem (coalesce s bp).1.mem := by
  simp only [coalesce]
  split_ifs <;> simp only [] <;>
    first
      | exact h
      | exact ByteMem_PUT _ _ _ (ByteMem_PUT _ _ _ h)

theorem mem_sbrk_some (s : St) (i bp : Nat) (s1 : St)
    (h : mem_sbrk s i = some (bp, s1)) :
    bp = s.brk ∧ s1 = { s with brk := s.brk + i } := by
  simp only [mem_sbrk] at h
  split_ifs at h
  · cases h
    exact ⟨rfl, rfl⟩

theorem ByteMem_extend_heap (s : St) (w : Nat) (h : ByteMem s.mem) :
    ByteMem (extend_heap s w).1.mem := by
  simp only [extend_heap]
  rcases h1 : mem_sbrk s (if w % 2 = 1 then (w + 1) * WSIZE else w * WSIZE)
    with _ | ⟨bp, s1⟩ <;> simp only [h1]
  · exact h
  · obtain ⟨rfl, rfl⟩ := mem_sbrk_some _ _ _ _ h1
    exact ByteMem_coalesce _ _ (ByteMem_PUT _ _ _ (ByteMem_PUT _ _ _ (ByteMem_PUT _ _ _ h)))

theorem ByteMem_place (s : St) (bp asize : Nat) (h : ByteMem s.mem) :
    ByteMem (place s bp asize).mem := by
  simp only [place]
  split_ifs
  · exact ByteMem_PUT _ _ _ (ByteMem_PUT _ _ _ (ByteMem_PUT _ _ _ (ByteMem_PUT _ _ _ h)))
  · exact ByteMem_PUT _ _ _ (ByteMem_PUT _ _ _ h)

theorem ByteMem_malloc (s : St) (size : Nat) (h : ByteMem s.mem) :
    ByteMem (mm_malloc s size).2.mem := by
  simp only [mm_malloc]
  split_ifs
  · exact h
  · exact ByteMem_place _ _ _ h
  · exact ByteMem_extend_heap _ _ h
  · exact ByteMem_place _ _ _ (ByteMem_extend_heap _ _ h)

/-- C6: mm_realloc(NULL, n) is exactly mm_malloc(n); mm_realloc(p, 0) with
p non-null is exactly mm_free(p) returning NULL; and for non-null p and n > 0
with a successful inner allocation, mm_realloc allocates the new block, copies
exactly min(old payload size, n) bytes of the old payload byte for byte into
the new payload, frees the old block and returns the new pointer. -/
theorem C6_realloc_behaviour (s : St) (ptr size : Nat) (hb : ByteMem s.mem) :
    mm_realloc s 0 size = mm_malloc s size ∧
    (ptr ≠ 0 → mm_realloc s ptr 0 = (0, mm_free s ptr)) ∧
    (ptr ≠ 0 → size ≠ 0 → (mm_malloc s size).1 ≠ 0 →
      mm_realloc s ptr size =
        ((mm_malloc s size).1,
          mm_free
            { (mm_malloc s size).2 with
                mem := memcpy (mm_malloc s size).2.mem (mm_malloc s size).1 ptr
                  (min size (GET_SIZE (mm_malloc s size).2.mem (HDRP ptr) - DSIZE)) } ptr) ∧
      (∀ i, i < min size (GET_SIZE (mm_malloc s size).2.mem (HDRP ptr) - DSIZE) →
        memcpy (mm_malloc s size).2.mem (mm_malloc s size).1 ptr
            (min size (GET_SIZE (mm_malloc s size).2.mem (HDRP ptr) - DSIZE))
            ((mm_malloc s size).1 + i)
          = (mm_malloc s size).2.mem (ptr + i))) := by
  refine ⟨?_, ?_, ?_⟩
  · simp only [mm_realloc]
    norm_num
  · intro hp
    simp only [mm_realloc, hp]
    norm_num
  · intro hp hs hne
    have hmin : (if size < GET_SIZE (mm_malloc s size).2.mem (HDRP ptr) - DSIZE then size
        else GET_SIZE (mm_malloc s size).2.mem (HDRP ptr) - DSIZE)
        = min size (GET_SIZE (mm_malloc s size).2.mem (HDRP ptr) - DSIZE) := by
      split_ifs <;> omega
    constructor
    · simp only [mm_realloc, if_neg hp, if_neg hs, if_neg hne, hmin]
    · intro i hi
      rw [memcpy_inside _ _ _ _ _ hi]
      have hlt : (mm_malloc s size).2.mem (ptr + i) < 256 := ByteMem_malloc s size hb _
      omega

/-- Concrete heap for the realloc witness: prologue, an allocated 16-byte
block at 24, a FREE 32-byte block at 40, epilogue; resizing the block at 24
succeeds by splitting the free block. -/
def reallocWitnessSt : St :=
  { mem := PUT (PUT (PUT (PUT (PUT (PUT (PUT (fun _ => 0) 12 9) 16 9) 20 17) 32 17) 36 32)
      64 32) 68 1
    brk := 72
    maxAddr := 200
    heap_listp := 16
    rover := 40 }

theorem reallocWitness_bytes : ByteMem reallocWitnessSt.mem := by
  show ByteMem (PUT (PUT (PUT (PUT (PUT (PUT (PUT (fun _ => 0) 12 9) 16 9) 20 17) 32 17)
    36 32) 64 32) 68 1)
  exact ByteMem_PUT _ _ _ (ByteMem_PUT _ _ _ (ByteMem_PUT _ _ _ (ByteMem_PUT _ _ _
    (ByteMem_PUT _ _ _ (ByteMem_PUT _ _ _ (ByteMem_PUT _ _ _ (fun a => by norm_num)))))))

/-- Witness for C6: on the concrete heap, resizing the allocated block at 24
to 8 bytes is the malloc-copy-free composition. -/
theorem C6_witness :
    mm_realloc reallocWitnessSt 24 8 =
      ((mm_malloc reallocWitnessSt 8).1,
        mm_free
          { (mm_malloc reallocWitnessSt 8).2 with
              mem := memcpy (mm_malloc reallocWitnessSt 8).2.mem
                (mm_malloc reallocWitnessSt 8).1 24
                (min 8 (GET_SIZE (mm_malloc reallocWitnessSt 8).2.mem (HDRP 24) - DSIZE)) }
          24) :=
  (((C6_realloc_behaviour reallocWitnessSt 24 8 reallocWitness_bytes).2.2
    (by decide) (by decide) (by decide)).1)


/-- Pristine provider state for the concrete scenario of C8: empty byte
memory, break at 8, ample address space. -/
def c8s0 : St :=
  { mem := fun _ => 0, brk := 8, maxAddr := 100000, heap_listp := 0, rover := 0 }

/-- State and pointer after `a = allocate(100)` following init. -/
def c8a : Nat × St := mm_malloc (mm_init c8s0).1 100

/-- State and pointer after `b = allocate(40)`. -/
def c8b : Nat × St := mm_malloc c8a.2 40

/-- State after `free(a)`. -/
def c8f : St := mm_free c8b.2 c8a.1

/-- State and pointer after `c = allocate(90)`. -/
def c8c : Nat × St := mm_malloc c8f 90

/-- Counterexample for C8: in the scenario init; a = allocate(100);
b = allocate(40); free(a); c = allocate(90), the code's next-fit search (the
first-fit loop is commented out) starts at the rover, which `place` left on
the large split remainder at 184, so c = 184 and does NOT reuse a's freed
block at 24. -/
theorem C8_counterexample :
    (mm_init c8s0).2 = true ∧ c8a.1 = 24 ∧ c8c.1 = 184 ∧ c8c.1 ≠ c8a.1 := by
  decide

/-- C8 amended: in that scenario, c is allocated at the rotating cursor — the
free split remainder left after b — rather than from a's freed block, and the
heap is still not grown (100's rounded block size is 112 bytes and 90's
rounded need is 104 bytes, so existing free space suffices; a's block at 24
stays FREE). -/
theorem C8_amended :
    c8c.1 = c8f.rover ∧ c8c.2.brk = c8f.brk ∧ c8c.2.brk = (mm_init c8s0).1.brk ∧
      c8c.1 ≠ c8a.1 ∧ adjustSize 100 = 112 ∧ adjustSize 90 = 104 ∧
      GET_ALLOC c8c.2.mem (HDRP c8a.1) = 0 := by
  decide


/-- A parsed heap block: payload address, total size, allocation bit. -/
structure Blk where
  addr : Nat
  size : Nat
  alloc : Nat
deriving DecidableEq, Repr

/-- Parse the block sequence starting at payload address `bp`: stop at an
epilogue header (stored word exactly 1 = PACK(0, 1)); otherwise demand a
well-formed block (size at least 16, only the allocation bit besides the
size in the low bits, footer equal to header) and continue behind it.  The
fuel only bounds the number of blocks. -/
def parseBlocks (m : Mem) : Nat → Nat → Option (List Blk)
  | 0, _ => none
  | fuel + 1, bp =>
    let hd := GET m (bp - 4)
    if hd = 1 then some []
    else
      let sz := hd - hd % 8
      if 16 ≤ sz ∧ hd % 8 = hd % 2 ∧ GET m (bp + sz - 8) = hd then
        match parseBlocks m fuel (bp + sz) with
        | none => none
        | some L => some ({ addr := bp, size := sz, alloc := hd % 2 } :: L)
      else none

/-- Address one past the last parsed block (= payload address of the epilogue). -/
def endAddr (bp : Nat) (L : List Blk) : Nat := bp + (L.map Blk.size).sum

/-- No two adjacent parsed blocks are both FREE. -/
abbrev NoTwoFree (L : List Blk) : Prop :=
  List.Chain' (fun b1 b2 => ¬ (b1.alloc = 0 ∧ b2.alloc = 0)) L

theorem endAddr_nil (bp : Nat) : endAddr bp [] = bp := by
  simp [endAddr]

theorem endAddr_cons (bp : Nat) (b : Blk) (L : List Blk) :
    endAddr bp (b :: L) = endAddr (bp + b.size) L := by
  simp [endAddr]
  omega

theorem parse_nil_elim (m : Mem) (f bp : Nat) (h : parseBlocks m f bp = some []) :
    GET m (bp - 4) = 1 := by
  match f with
  | 0 => simp [parseBlocks] at h
  | f + 1 =>
    simp only [parseBlocks] at h
    split_ifs at h with h1 h2
    · exact h1
    · rcases hr : parseBlocks m f (bp + (GET m (bp - 4) - GET m (bp - 4) % 8)) with _ | L <;>
        simp [hr] at h

theorem parse_cons_elim (m : Mem) (f bp : Nat) (b : Blk) (L : List Blk)
    (h : parseBlocks m f bp = some (b :: L)) :
    b.addr = bp ∧ GET m (bp - 4) = b.size + b.alloc ∧
    GET m (bp + b.size - 8) = b.size + b.alloc ∧ 16 ≤ b.size ∧ b.size % 8 = 0 ∧
    b.alloc ≤ 1 ∧ ∃ f', f = f' + 1 ∧ parseBlocks m f' (bp + b.size) = some L := by
  match f with
  | 0 => simp [parseBlocks] at h
  | f + 1 =>
    simp only [parseBlocks] at h
    split_ifs at h with h1 h2
    · cases h
    · rcases hr : parseBlocks m f (bp + (GET m (bp - 4) - GET m (bp - 4) % 8)) with _ | L'
      · rw [hr] at h
        cases h
      · rw [hr] at h
        simp only [Option.some.injEq, List.cons.injEq] at h
        obtain ⟨rfl, rfl⟩ := h

        refine ⟨rfl, ?_, ?_, ?_, ?_, ?_, f, rfl, ?_⟩ <;> dsimp only <;>
          first
            | omega
            | (rw [show GET m (bp - 4) - GET m (bp - 4) % 8 + GET m (bp - 4) % 2
                  = GET m (bp - 4) by omega]; omega)
            | exact hr

theorem parse_cons_intro (m : Mem) (f bp sz al : Nat) (L : List Blk)
    (hhd : GET m (bp - 4) = sz + al) (hsz : 16 ≤ sz) (hal8 : sz % 8 = 0) (hal : al ≤ 1)
    (hftr : GET m (bp + sz - 8) = sz + al)
    (hrec : parseBlocks m f (bp + sz) = some L) :
    parseBlocks m (f + 1) bp = some ({ addr := bp, size := sz, alloc := al } :: L) := by
  simp only [parseBlocks, hhd]
  rw [if_neg (by omega)]
  rw [if_pos (by refine ⟨by omega, by omega, ?_⟩; rw [show sz + al - (sz + al) % 8 = sz by omega]; exact hftr)]
  rw [show sz + al - (sz + al) % 8 = sz by omega]
  rw [hrec]
  simp only [Option.some.injEq, List.cons.injEq, Blk.mk.injEq]
  exact ⟨⟨trivial, trivial, by omega⟩, trivial⟩

theorem parse_nil_intro (m : Mem) (f bp : Nat) (hhd : GET m (bp - 4) = 1) :
    parseBlocks m (f + 1) bp = some [] := by
  simp [parseBlocks, hhd]

theorem parse_fuel_mono (m : Mem) (L : List Blk) :
    ∀ f f' bp, parseBlocks m f bp = some L → f ≤ f' → parseBlocks m f' bp = some L := by
  induction L with
  | nil =>
    intro f f' bp h hf
    have h1 := parse_nil_elim m f bp h
    have hf1 : 1 ≤ f := by
      rcases f with _ | f
      · simp [parseBlocks] at h
      · omega
    rcases f' with _ | f'
    · omega
    · exact parse_nil_intro m f' bp h1
  | cons b L ih =>
    intro f f' bp h hf
    obtain ⟨hbp, hhd, hftr, hmin, hal8, hal, f1, rfl, hrec⟩ := parse_cons_elim m f bp b L h
    rcases f' with _ | f'
    · omega
    · subst hbp
      have := ih f1 f' _ hrec (by omega)
      have h2 := parse_cons_intro m f' b.addr b.size b.alloc L hhd hmin hal8 hal hftr this
      convert h2 using 2

theorem parse_split (m : Mem) (L1 : List Blk) :
    ∀ f bp L2, parseBlocks m f bp = some (L1 ++ L2) →
      parseBlocks m (f - L1.length) (endAddr bp L1) = some L2 := by
  induction L1 with
  | nil =>
    intro f bp L2 h
    simpa [endAddr_nil] using h
  | cons b L1 ih =>
    intro f bp L2 h
    obtain ⟨hbp, hhd, hftr, hmin, hal8, hal, f1, rfl, hrec⟩ :=
      parse_cons_elim m f bp b (L1 ++ L2) h
    rw [endAddr_cons]
    have := ih f1 (bp + b.size) L2 hrec
    rw [show f1 + 1 - (b :: L1).length = f1 - L1.length by simp]
    exact this

theorem parse_prefix_trans (m m' : Mem) (L1 : List Blk) :
    ∀ f f2 bp L2 L2', parseBlocks m f bp = some (L1 ++ L2) →
      (∀ b ∈ L1, GET m' (b.addr - 4) = GET m (b.addr - 4) ∧
        GET m' (b.addr + b.size - 8) = GET m (b.addr + b.size - 8)) →
      parseBlocks m' f2 (endAddr bp L1) = some L2' →
      parseBlocks m' (f2 + L1.length) bp = some (L1 ++ L2') := by
  induction L1 with
  | nil =>
    intro f f2 bp L2 L2' h hag h2
    simpa [endAddr_nil] using h2
  | cons b L1 ih =>
    intro f f2 bp L2 L2' h hag h2
    obtain ⟨hbp, hhd, hftr, hmin, hal8, hal, f1, rfl, hrec⟩ :=
      parse_cons_elim m f bp b (L1 ++ L2) h
    subst hbp
    rw [endAddr_cons] at h2
    have hrec' := ih f1 f2 (b.addr + b.size) L2 L2' hrec
      (fun b' hb' => hag b' (List.mem_cons_of_mem _ hb')) h2
    have hb := hag b (List.mem_cons_self _ _)
    have h3 := parse_cons_intro m' (f2 + L1.length) b.addr b.size b.alloc (L1 ++ L2')
      (by rw [hb.1, hhd]) hmin hal8 hal (by rw [hb.2, hftr]) hrec'
    have he : f2 + (b :: L1).length = f2 + L1.length + 1 := by simp; omega
    rw [he]
    convert h3 using 2

theorem parse_congr (m m' : Mem) (L : List Blk) :
    ∀ f bp, parseBlocks m f bp = some L →
      (∀ b ∈ L, GET m' (b.addr - 4) = GET m (b.addr - 4) ∧
        GET m' (b.addr + b.size - 8) = GET m (b.addr + b.size - 8)) →
      GET m' (endAddr bp L - 4) = GET m (endAddr bp L - 4) →
      parseBlocks m' f bp = some L := by
  induction L with
  | nil =>
    intro f bp h hag hepi
    have h1 := parse_nil_elim m f bp h
    rcases f with _ | f
    · simp [parseBlocks] at h
    · refine parse_nil_intro m' f bp ?_
      rw [endAddr_nil] at hepi
      rw [hepi, h1]
  | cons b L ih =>
    intro f bp h hag hepi
    obtain ⟨hbp, hhd, hftr, hmin, hal8, hal, f1, rfl, hrec⟩ := parse_cons_elim m f bp b L h
    subst hbp
    rw [endAddr_cons] at hepi
    have hrec' := ih f1 (b.addr + b.size) hrec
      (fun b' hb' => hag b' (List.mem_cons_of_mem _ hb')) hepi
    have hb := hag b (List.mem_cons_self _ _)
    have h3 := parse_cons_intro m' f1 b.addr b.size b.alloc L
      (by rw [hb.1, hhd]) hmin hal8 hal (by rw [hb.2, hftr]) hrec'
    convert h3 using 2

theorem parse_lo (m : Mem) (L : List Blk) :
    ∀ f bp, parseBlocks m f bp = some L →
      ∀ b ∈ L, bp ≤ b.addr ∧ b.addr + b.size ≤ endAddr bp L ∧ b.addr % 8 = bp % 8 := by
  induction L with
  | nil =>
    intro f bp h b hb
    simp at hb
  | cons c L ih =>
    intro f bp h b hb
    obtain ⟨hbp, hhd, hftr, hmin, hal8, hal, f1, rfl, hrec⟩ := parse_cons_elim m f bp c L h
    subst hbp
    rw [endAddr_cons]
    have hend : c.addr + c.size ≤ endAddr (c.addr + c.size) L := by
      simp only [endAddr]
      omega
    rcases List.mem_cons.1 hb with rfl | hb'
    · exact ⟨le_refl _, hend, rfl⟩
    · have := ih f1 (c.addr + c.size) hrec b hb'
      exact ⟨by omega, this.2.1, by omega⟩

theorem parse_len (m : Mem) (L : List Blk) :
    ∀ f bp, parseBlocks m f bp = some L → bp + 16 * L.length ≤ endAddr bp L := by
  induction L with
  | nil =>
    intro f bp h
    simp [endAddr_nil]
  | cons c L ih =>
    intro f bp h
    obtain ⟨hbp, hhd, hftr, hmin, hal8, hal, f1, rfl, hrec⟩ := parse_cons_elim m f bp c L h
    subst hbp
    rw [endAddr_cons]
    have := ih f1 (c.addr + c.size) hrec
    simp only [List.length_cons]
    omega


theorem parse_facts (m : Mem) (L : List Blk) :
    ∀ f bp, parseBlocks m f bp = some L →
      ∀ b ∈ L, GET m (b.addr - 4) = b.size + b.alloc ∧
        GET m (b.addr + b.size - 8) = b.size + b.alloc ∧ 16 ≤ b.size ∧
        b.size % 8 = 0 ∧ b.alloc ≤ 1 := by
  induction L with
  | nil =>
    intro f bp h b hb
    simp at hb
  | cons c L ih =>
    intro f bp h b hb
    obtain ⟨hbp, hhd, hftr, hmin, hal8, hal, f1, rfl, hrec⟩ := parse_cons_elim m f bp c L h
    subst hbp
    rcases List.mem_cons.1 hb with rfl | hb'
    · exact ⟨hhd, hftr, hmin, hal8, hal⟩
    · exact ih f1 (c.addr + c.size) hrec b hb'

theorem parse_epi (m : Mem) (f bp : Nat) (L : List Blk)
    (h : parseBlocks m f bp = some L) : GET m (endAddr bp L - 4) = 1 :=
  parse_nil_elim _ _ _ (parse_split m L f bp [] (by simpa using h))

/-- Well-formed allocator state with parsed block list `L`: aligned heap
start, intact prologue tags, the block sequence parses and ends exactly at
the break (where the epilogue header sits), no two adjacent FREE blocks, the
rover on a block start or the epilogue, and the break within the 32-bit
provider limit. -/
structure WFwith (s : St) (L : List Blk) : Prop where
  hl_align : s.heap_listp % 8 = 0
  hl_lo : 16 ≤ s.heap_listp
  pro_hdr : GET s.mem (s.heap_listp - 4) = 9
  pro_ftr : GET s.mem s.heap_listp = 9
  parse_eq : parseBlocks s.mem s.brk (s.heap_listp + 8) = some L
  end_brk : endAddr (s.heap_listp + 8) L = s.brk
  noadj : NoTwoFree L
  rover_ok : s.rover ∈ L.map Blk.addr ∨ s.rover = s.brk
  brk_le : s.brk ≤ s.maxAddr
  max_lt : s.maxAddr + 8 < 4294967296

/-- First FREE block in the list whose size is at least `asize`; 0 when none. -/
def firstFit (asize : Nat) : List Blk → Nat
  | [] => 0
  | b :: L => if b.alloc = 0 ∧ asize ≤ b.size then b.addr else firstFit asize L

theorem ffScan1_spec (m : Mem) (asize : Nat) (L : List Blk) :
    ∀ f bp fuel, parseBlocks m f bp = some L → L.length + 1 ≤ fuel →
      ffScan1 m asize fuel bp = firstFit asize L := by
  induction L with
  | nil =>
    intro f bp fuel h hfuel
    have h1 := parse_nil_elim m f bp h
    rcases fuel with _ | fuel
    · omega
    · simp only [ffScan1, GET_SIZE, HDRP, WSIZE, h1]
      norm_num [firstFit]
  | cons b L ih =>
    intro f bp fuel h hfuel
    obtain ⟨hbp, hhd, hftr, hmin, hal8, hal, f1, rfl, hrec⟩ := parse_cons_elim m f bp b L h
    subst hbp
    rcases fuel with _ | fuel
    · simp at hfuel
    · have hsz : GET_SIZE m (HDRP b.addr) = b.size := by
        simp only [GET_SIZE, HDRP, WSIZE, hhd]
        omega
      have hac : GET_ALLOC m (HDRP b.addr) = b.alloc := by
        simp only [GET_ALLOC, HDRP, WSIZE, hhd]
        omega
      have hnext : NEXT_BLKP m b.addr = b.addr + b.size := by
        simp only [NEXT_BLKP, hsz]
      simp only [ffScan1, hsz, hac, hnext, firstFit]
      rw [if_pos (by omega)]
      by_cases hfit : b.alloc = 0 ∧ asize ≤ b.size
      · rw [if_pos hfit, if_pos hfit]
      · rw [if_neg hfit, if_neg hfit]
        exact ih f1 (b.addr + b.size) fuel hrec (by simp at hfuel ⊢; omega)

theorem ffScan2_spec (m : Mem) (asize rover : Nat) (L1 : List Blk) :
    ∀ f bp L2 fuel, parseBlocks m f bp = some (L1 ++ L2) →
      rover = endAddr bp L1 →
      L1.length + 1 ≤ fuel →
      ffScan2 m asize rover fuel bp = firstFit asize L1 := by
  induction L1 with
  | nil =>
    intro f bp L2 fuel h hr hfuel
    rcases fuel with _ | fuel
    · omega
    · rw [endAddr_nil] at hr
      simp only [ffScan2, firstFit]
      rw [if_neg (by omega)]
  | cons b L1 ih =>
    intro f bp L2 fuel h hr hfuel
    obtain ⟨hbp, hhd, hftr, hmin, hal8, hal, f1, rfl, hrec⟩ :=
      parse_cons_elim m f bp b (L1 ++ L2) h
    subst hbp
    rcases fuel with _ | fuel
    · simp at hfuel
    · have hsz : GET_SIZE m (HDRP b.addr) = b.size := by
        simp only [GET_SIZE, HDRP, WSIZE, hhd]
        omega
      have hac : GET_ALLOC m (HDRP b.addr) = b.alloc := by
        simp only [GET_ALLOC, HDRP, WSIZE, hhd]
        omega
      have hnext : NEXT_BLKP m b.addr = b.addr + b.size := by
        simp only [NEXT_BLKP, hsz]
      rw [endAddr_cons] at hr
      have hend := parse_len m (L1 ++ L2) f1 (b.addr + b.size) hrec
      have hend2 : b.addr + b.size ≤ endAddr (b.addr + b.size) L1 := by
        simp only [endAddr]
        omega
      simp only [ffScan2, hsz, hac, hnext, firstFit]
      rw [if_pos (by omega)]
      by_cases hfit : b.alloc = 0 ∧ asize ≤ b.size
      · rw [if_pos hfit, if_pos hfit]
      · rw [if_neg hfit, if_neg hfit]
        exact ih f1 (b.addr + b.size) L2 fuel hrec hr (by simp at hfuel ⊢; omega)

theorem firstFit_zero_iff (asize : Nat) (M : List Blk) (hnz : ∀ b ∈ M, b.addr ≠ 0) :
    (firstFit asize M = 0 ↔ ∀ b ∈ M, b.alloc = 0 → b.size < asize) := by
  induction M with
  | nil => simp [firstFit]
  | cons b M ih =>
    simp only [firstFit]
    by_cases hfit : b.alloc = 0 ∧ asize ≤ b.size
    · rw [if_pos hfit]
      constructor
      · intro hz
        exact absurd hz (hnz b (List.mem_cons_self _ _))
      · intro hall
        have := hall b (List.mem_cons_self _ _) hfit.1
        omega
    · rw [if_neg hfit]
      rw [ih (fun b' hb' => hnz b' (List.mem_cons_of_mem _ hb'))]
      constructor
      · intro hall b' hb' ha'
        rcases List.mem_cons.1 hb' with rfl | hb''
        · omega
        · exact hall b' hb'' ha'
      · intro hall b' hb' ha'
        exact hall b' (List.mem_cons_of_mem _ hb') ha'

theorem firstFit_mem (asize : Nat) (M : List Blk) (h : firstFit asize M ≠ 0) :
    ∃ b ∈ M, firstFit asize M = b.addr ∧ b.alloc = 0 ∧ asize ≤ b.size := by
  induction M with
  | nil => simp [firstFit] at h
  | cons b M ih =>
    simp only [firstFit] at h ⊢
    by_cases hfit : b.alloc = 0 ∧ asize ≤ b.size
    · rw [if_pos hfit] at h ⊢
      exact ⟨b, List.mem_cons_self _ _, rfl, hfit⟩
    · rw [if_neg hfit] at h ⊢
      obtain ⟨b', hb', heq, hfit'⟩ := ih h
      exact ⟨b', List.mem_cons_of_mem _ hb', heq, hfit'⟩

theorem WFwith.len_fuel (s : St) (L : List Blk) (h : WFwith s L) :
    L.length + 1 ≤ s.brk ∧ s.heap_listp + 8 + 16 * L.length ≤ s.brk := by
  have h1 := parse_len s.mem L s.brk (s.heap_listp + 8) h.parse_eq
  have h2 := h.end_brk
  have h3 := h.hl_lo
  constructor <;> omega

theorem find_fit_spec (s : St) (L1 L2 : List Blk) (asize : Nat)
    (h : WFwith s (L1 ++ L2)) (hrover : s.rover = endAddr (s.heap_listp + 8) L1) :
    find_fit s asize s.brk =
      if firstFit asize L2 = 0 then firstFit asize L1 else firstFit asize L2 := by
  have hlen := h.len_fuel
  simp only [List.length_append] at hlen
  have hsplit := parse_split s.mem L1 s.brk (s.heap_listp + 8) L2 h.parse_eq
  rw [← hrover] at hsplit
  have h1 : ffScan1 s.mem asize s.brk s.rover = firstFit asize L2 :=
    ffScan1_spec s.mem asize L2 _ _ _ hsplit (by omega)
  have hnb : NEXT_BLKP s.mem s.heap_listp = s.heap_listp + 8 := by
    simp only [NEXT_BLKP, GET_SIZE, HDRP, WSIZE]
    rw [h.pro_hdr]
  have h2 : ffScan2 s.mem asize s.rover s.brk (s.heap_listp + 8) = firstFit asize L1 :=
    ffScan2_spec s.mem asize s.rover L1 s.brk _ L2 _ h.parse_eq hrover (by omega)
  simp only [find_fit, h1, hnb, h2]
  by_cases hz : firstFit asize L2 = 0
  · rw [if_neg (by omega), if_pos hz]
  · rw [if_pos hz, if_neg hz]

/-- C5: on a well-formed heap whose rover sits at the start of the suffix
`L2` of the block list (`L1` is the prefix before the cursor), the next-fit
locator returns the first FREE fitting block of the cursor-to-epilogue scan,
falling back to the first FREE fitting block of the wrapped
start-to-cursor scan, and it returns the NULL sentinel exactly when no FREE
block anywhere in the heap is large enough.  The search only reads memory:
the embedding of find_fit is a pure function, mirroring that the C loops
perform no writes, so a failed search changes neither heap nor cursor. -/
theorem C5_find_fit_next_fit (s : St) (L1 L2 : List Blk) (asize : Nat)
    (h : WFwith s (L1 ++ L2)) (hrover : s.rover = endAddr (s.heap_listp + 8) L1) :
    find_fit s asize s.brk =
      (if firstFit asize L2 = 0 then firstFit asize L1 else firstFit asize L2) ∧
    (find_fit s asize s.brk = 0 ↔
      ∀ b ∈ L1 ++ L2, b.alloc = 0 → b.size < asize) := by
  have hspec := find_fit_spec s L1 L2 asize h hrover
  have hnz : ∀ b ∈ L1 ++ L2, b.addr ≠ 0 := by
    intro b hb
    have := (parse_lo s.mem (L1 ++ L2) s.brk _ h.parse_eq b hb).1
    have := h.hl_lo
    omega
  refine ⟨hspec, ?_⟩
  rw [hspec]
  have hz1 := firstFit_zero_iff asize L1 (fun b hb => hnz b (List.mem_append_left _ hb))
  have hz2 := firstFit_zero_iff asize L2 (fun b hb => hnz b (List.mem_append_right _ hb))
  constructor
  · intro hec b hb ha
    split_ifs at hec with hf2
    · rcases List.mem_append.1 hb with hb' | hb'
      · exact (hz1.1 hec) b hb' ha
      · exact (hz2.1 hf2) b hb' ha
    · exact absurd hec hf2
  · intro hall
    have hf2 : firstFit asize L2 = 0 :=
      hz2.2 (fun b hb ha => hall b (List.mem_append_right _ hb) ha)
    rw [if_pos hf2]
    exact hz1.2 (fun b hb ha => hall b (List.mem_append_left _ hb) ha)

/-- Witness for C5 on the concrete two-block heap: the rover starts at the
free 32-byte block, which satisfies a 24-byte request. -/
theorem C5_witness :
    find_fit reallocWitnessSt 24 reallocWitnessSt.brk =
      (if firstFit 24 [{ addr := 40, size := 32, alloc := 0 }] = 0
        then firstFit 24 [{ addr := 24, size := 16, alloc := 1 }]
        else firstFit 24 [{ addr := 40, size := 32, alloc := 0 }]) :=
  (C5_find_fit_next_fit reallocWitnessSt [{ addr := 24, size := 16, alloc := 1 }]
    [{ addr := 40, size := 32, alloc := 0 }] 24
    (by refine ⟨by decide, by decide, by decide, by decide, by decide, by decide, ?_,
      by decide, by decide, by decide⟩
        simp [NoTwoFree])
    (by decide)).1


/-- Parse-level well-formedness without the free invariant and rover: used
for intermediate states (e.g. right after a block's tags are flipped). -/
structure PreWF (s : St) (L : List Blk) : Prop where
  hl_align : s.heap_listp % 8 = 0
  hl_lo : 16 ≤ s.heap_listp
  pro_hdr : GET s.mem (s.heap_listp - 4) = 9
  pro_ftr : GET s.mem s.heap_listp = 9
  parse_eq : parseBlocks s.mem s.brk (s.heap_listp + 8) = some L
  end_brk : endAddr (s.heap_listp + 8) L = s.brk
  brk_le : s.brk ≤ s.maxAddr
  max_lt : s.maxAddr + 8 < 4294967296

theorem WFwith.pre {s : St} {L : List Blk} (h : WFwith s L) : PreWF s L :=
  ⟨h.hl_align, h.hl_lo, h.pro_hdr, h.pro_ftr, h.parse_eq, h.end_brk, h.brk_le, h.max_lt⟩

theorem endAddr_append (bp : Nat) (A B : List Blk) :
    endAddr bp (A ++ B) = endAddr (endAddr bp A) B := by
  simp [endAddr]
  omega

theorem parse_at (m : Mem) (f bp : Nat) (L1 : List Blk) (b : Blk) (L2 : List Blk)
    (h : parseBlocks m f bp = some (L1 ++ b :: L2)) : b.addr = endAddr bp L1 :=
  (parse_cons_elim m _ _ b L2 (parse_split m L1 f bp (b :: L2) h)).1

theorem parse_prefix_lo (m : Mem) (L1 : List Blk) :
    ∀ f bp L2, parseBlocks m f bp = some (L1 ++ L2) →
      ∀ p ∈ L1, bp ≤ p.addr ∧ p.addr + p.size ≤ endAddr bp L1 := by
  induction L1 with
  | nil =>
    intro f bp L2 h p hp
    simp at hp
  | cons c L1 ih =>
    intro f bp L2 h p hp
    obtain ⟨hbp, hhd, hftr, hmin, hal8, hal, f1, rfl, hrec⟩ :=
      parse_cons_elim m _ bp c (L1 ++ L2) h
    subst hbp
    rw [endAddr_cons]
    have hend : c.addr + c.size ≤ endAddr (c.addr + c.size) L1 := by
      simp only [endAddr]
      omega
    rcases List.mem_cons.1 hp with rfl | hp'
    · exact ⟨le_refl _, hend⟩
    · have := ih f1 (c.addr + c.size) L2 hrec p hp'
      exact ⟨by omega, this.2⟩

/-- Bridge from parse-level well-formedness to the local coalesce context:
the block before `b` is the last block of `pre` (or the prologue) and the
block after is the head of `post` (or the epilogue). -/
theorem PreWF_to_CoalCtx (s : St) (pre post : List Blk) (b : Blk) (psz pa nsz na : Nat)
    (h : PreWF s (pre ++ b :: post)) (hfree : b.alloc = 0)
    (hprev : (pre = [] ∧ psz = 8 ∧ pa = 1) ∨
      ∃ pre0 p, pre = pre0 ++ [p] ∧ psz = p.size ∧ pa = p.alloc)
    (hnext : (post = [] ∧ nsz = 0 ∧ na = 1) ∨
      ∃ n post1, post = n :: post1 ∧ nsz = n.size ∧ na = n.alloc) :
    CoalCtx s.mem b.addr psz pa b.size nsz na := by
  have hp := h.parse_eq
  have hbf := parse_facts s.mem _ _ _ hp b (by simp)
  have hba : b.addr = endAddr (s.heap_listp + 8) pre := parse_at _ _ _ _ _ _ hp
  have hblo := parse_lo s.mem _ _ _ hp b (by simp)
  have hfirst : 16 ≤ s.heap_listp := h.hl_lo
  have hbrk := h.end_brk
  have hmaxlt := h.max_lt
  have hbrkle := h.brk_le
  -- next block data
  have hnextd : GET s.mem (b.addr + b.size - 4) = nsz + na ∧
      (na = 0 → GET s.mem (b.addr + b.size + nsz - 8) = nsz) ∧ nsz % 8 = 0 ∧ na ≤ 1 ∧
      (na = 0 → 16 ≤ nsz) ∧ b.addr + b.size + nsz ≤ s.brk := by
    rcases hnext with ⟨rfl, rfl, rfl⟩ | ⟨n, post1, rfl, rfl, rfl⟩
    · have hend : endAddr (s.heap_listp + 8) (pre ++ [b]) = s.brk := by
        rw [show pre ++ b :: ([] : List Blk) = pre ++ [b] from rfl] at hbrk
        exact hbrk
      have hepi := parse_epi s.mem _ _ _ hp
      rw [show pre ++ b :: ([] : List Blk) = pre ++ [b] from rfl, hend] at hepi
      have hbend : b.addr + b.size = s.brk := by
        rw [← hend, endAddr_append, endAddr_cons, endAddr_nil, hba]
      refine ⟨?_, by omega, by omega, by omega, by omega, by omega⟩
      rw [hbend]
      simpa using hepi
    · have hsplit2 : parseBlocks s.mem (s.brk - (pre ++ [b]).length)
          (endAddr (s.heap_listp + 8) (pre ++ [b])) = some (n :: post1) := by
        refine parse_split s.mem (pre ++ [b]) s.brk _ (n :: post1) ?_
        simpa using hp
      have hne := parse_cons_elim s.mem _ _ n post1 hsplit2
      have hend2 : endAddr (s.heap_listp + 8) (pre ++ [b]) = b.addr + b.size := by
        rw [endAddr_append, endAddr_cons, endAddr_nil, hba]
      rw [hend2] at hne
      have hnlo := parse_lo s.mem _ _ _ hp n (by simp)
      refine ⟨by rw [← hne.1] at *; exact hne.2.1, ?_, hne.2.2.2.2.1, hne.2.2.2.2.2.1, ?_, ?_⟩
      · intro hna0
        rw [← hne.1] at *
        rw [show n.addr + n.size - 8 = n.addr + n.size - 8 from rfl]
        have := hne.2.2.1
        omega
      · intro hna0
        exact hne.2.2.2.1
      · rw [← hne.1] at *
        have := hnlo.2.1
        omega
  -- previous block data
  have hprevd : GET s.mem (b.addr - 8) = psz + pa ∧ GET s.mem (b.addr - psz - 4) = psz + pa ∧
      8 ≤ psz ∧ psz % 8 = 0 ∧ pa ≤ 1 ∧ (pa = 0 → 16 ≤ psz) ∧ psz + 8 ≤ b.addr := by
    rcases hprev with ⟨rfl, rfl, rfl⟩ | ⟨pre0, p, rfl, rfl, rfl⟩
    · rw [hba, endAddr_nil]
      have h1 := h.pro_ftr
      have h2 := h.pro_hdr
      refine ⟨?_, ?_, by omega, by omega, by omega, by omega, by omega⟩
      · rw [show s.heap_listp + 8 - 8 = s.heap_listp by omega]
        omega
      · rw [show s.heap_listp + 8 - 8 - 4 = s.heap_listp - 4 by omega]
        omega
    · have hpf := parse_facts s.mem _ _ _ hp p (by simp)
      have hpa : p.addr = endAddr (s.heap_listp + 8) pre0 := by
        refine parse_at s.mem s.brk _ pre0 p (b :: post) ?_
        simpa using hp
      have hadj : p.addr + p.size = b.addr := by
        rw [hba, endAddr_append, endAddr_cons, endAddr_nil, hpa]
      have hplo := parse_lo s.mem _ _ _ hp p (by simp)
      refine ⟨?_, ?_, by omega, hpf.2.2.2.1, hpf.2.2.2.2, by omega, ?_⟩
      · rw [show b.addr - 8 = p.addr + p.size - 8 by omega]
        exact hpf.2.1
      · rw [show b.addr - p.size - 4 = p.addr - 4 by omega]
        exact hpf.1
      · have := hplo.1
        omega
  constructor
  case cur_hdr =>
    rw [hbf.1, hfree]
    omega
  case cur_ftr =>
    rw [hbf.2.1, hfree]
    omega
  case cur_min => exact hbf.2.2.1
  case cur_align => exact hbf.2.2.2.1
  case prev_ftr => exact hprevd.1
  case prev_hdr => exact hprevd.2.1
  case prev_min => exact hprevd.2.2.1
  case prev_align => exact hprevd.2.2.2.1
  case pa_bit => exact hprevd.2.2.2.2.1
  case prev_free_min => exact hprevd.2.2.2.2.2.1
  case next_hdr => exact hnextd.1
  case next_ftr =>
    intro hna
    have := hnextd.2.1 hna
    omega
  case next_align => exact hnextd.2.2.1
  case na_bit => exact hnextd.2.2.2.1
  case next_free_min => exact hnextd.2.2.2.2.1
  case lo_bound => exact hprevd.2.2.2.2.2.2
  case hi_bound =>
    have h1 := hnextd.2.2.2.2.2
    have h2 := hprevd.2.2.2.2.2.2
    have h3 := hblo.1
    omega


theorem PreWF.length_fuel {s : St} {L : List Blk} (h : PreWF s L) :
    L.length + 1 ≤ s.brk ∧ s.heap_listp + 8 + 16 * L.length ≤ s.brk := by
  have h1 := parse_len s.mem L s.brk (s.heap_listp + 8) h.parse_eq
  have h2 := h.end_brk
  have h3 := h.hl_lo
  constructor <;> omega

/-- Bounds of the prefix blocks, the middle block and the suffix blocks of a
parsed three-way split, relative to the middle block's payload address. -/
theorem parse_mid_bounds (s : St) (pre post : List Blk) (b : Blk)
    (h : PreWF s (pre ++ b :: post)) :
    b.addr = endAddr (s.heap_listp + 8) pre ∧
    (∀ p ∈ pre, s.heap_listp + 8 ≤ p.addr ∧ p.addr + p.size ≤ b.addr) ∧
    (∀ q ∈ post, b.addr + b.size ≤ q.addr ∧ q.addr + q.size ≤ s.brk) ∧
    s.heap_listp + 8 ≤ b.addr ∧ b.addr + b.size ≤ s.brk ∧
    endAddr (b.addr + b.size) post = s.brk := by
  have hp := h.parse_eq
  have hba : b.addr = endAddr (s.heap_listp + 8) pre := parse_at _ _ _ _ _ _ hp
  have hpre := parse_prefix_lo s.mem pre _ _ _ hp
  have hsplitb : parseBlocks s.mem (s.brk - (pre ++ [b]).length)
      (endAddr (s.heap_listp + 8) (pre ++ [b])) = some post := by
    refine parse_split s.mem (pre ++ [b]) s.brk _ post ?_
    simpa using hp
  have hend2 : endAddr (s.heap_listp + 8) (pre ++ [b]) = b.addr + b.size := by
    rw [endAddr_append, endAddr_cons, endAddr_nil, hba]
  rw [hend2] at hsplitb
  have hpost := parse_lo s.mem post _ _ hsplitb
  have hendpost : endAddr (b.addr + b.size) post = s.brk := by
    have := h.end_brk
    rw [show pre ++ b :: post = (pre ++ [b]) ++ post by simp] at this
    rw [endAddr_append, hend2] at this
    exact this
  have hblo := parse_lo s.mem _ _ _ hp b (by simp)
  refine ⟨hba, ?_, ?_, hblo.1, ?_, hendpost⟩
  · intro p hpmem
    have := hpre p hpmem
    omega
  · intro q hq
    have := hpost q hq
    omega
  · have hq := parse_len s.mem post _ _ hsplitb
    omega

theorem endAddr_le_self (bp : Nat) (L : List Blk) : bp ≤ endAddr bp L := by
  simp only [endAddr]
  omega

theorem parse_fuel_exact (m : Mem) (L : List Blk) :
    ∀ f bp, parseBlocks m f bp = some L → parseBlocks m (L.length + 1) bp = some L := by
  induction L with
  | nil =>
    intro f bp h
    exact parse_nil_intro m 0 bp (parse_nil_elim m f bp h)
  | cons b L ih =>
    intro f bp h
    obtain ⟨hbp, hhd, hftr, hmin, hal8, hal, f1, rfl, hrec⟩ := parse_cons_elim m f bp b L h
    subst hbp
    have h2 := parse_cons_intro m (L.length + 1) b.addr b.size b.alloc L hhd hmin hal8 hal
      hftr (ih f1 _ hrec)
    simpa using h2

/-- Replace the middle segment of a well-parsed heap: if the memory is
unchanged outside the byte range of the old middle segment (taggable region
from 4 before its start to 4 before its end), the new middle occupies exactly
the same byte extent, and its blocks parse against the untouched suffix, then
the whole heap re-parses with the middle swapped.  The rover is arbitrary:
`PreWF` does not constrain it. -/
theorem PreWF_surgery (s : St) (m2 : Mem) (rover2 : Nat) (pre mid mid2 post : List Blk)
    (h : PreWF s (pre ++ (mid ++ post)))
    (hsum : endAddr (endAddr (s.heap_listp + 8) pre) mid2
        = endAddr (endAddr (s.heap_listp + 8) pre) mid)
    (hag : ∀ r, (r + 4 ≤ endAddr (s.heap_listp + 8) pre - 4 ∨
        endAddr (endAddr (s.heap_listp + 8) pre) mid - 4 ≤ r) → GET m2 r = GET s.mem r)
    (hmid2 : ∀ f, parseBlocks m2 f (endAddr (endAddr (s.heap_listp + 8) pre) mid)
          = some post →
        parseBlocks m2 (f + mid2.length) (endAddr (s.heap_listp + 8) pre)
          = some (mid2 ++ post)) :
    PreWF { s with mem := m2, rover := rover2 } (pre ++ (mid2 ++ post)) := by
  have hfir := h.hl_lo
  have hA : s.heap_listp + 8 ≤ endAddr (s.heap_listp + 8) pre := endAddr_le_self _ _
  have hB : endAddr (s.heap_listp + 8) pre
      ≤ endAddr (endAddr (s.heap_listp + 8) pre) mid := endAddr_le_self _ _
  have hsplit_mid : parseBlocks s.mem (s.brk - (pre ++ mid).length)
      (endAddr (endAddr (s.heap_listp + 8) pre) mid) = some post := by
    have h5 := parse_split s.mem (pre ++ mid) s.brk (s.heap_listp + 8) post
      (by simpa using h.parse_eq)
    rwa [endAddr_append] at h5
  have hendpost : endAddr (endAddr (endAddr (s.heap_listp + 8) pre) mid) post = s.brk := by
    have := h.end_brk
    rw [show pre ++ (mid ++ post) = (pre ++ mid) ++ post by simp] at this
    rwa [endAddr_append, endAddr_append] at this
  have hBbrk : endAddr (endAddr (s.heap_listp + 8) pre) mid ≤ s.brk := by
    rw [← hendpost]
    exact endAddr_le_self _ _
  have hpostb := parse_lo s.mem post _ _ hsplit_mid
  have hpost2 : parseBlocks m2 (s.brk - (pre ++ mid).length)
      (endAddr (endAddr (s.heap_listp + 8) pre) mid) = some post := by
    refine parse_congr s.mem m2 post _ _ hsplit_mid ?_ ?_
    · intro q hq
      have hqb := hpostb q hq
      have hqf := parse_facts s.mem _ _ _ hsplit_mid q hq
      constructor
      · exact hag _ (by omega)
      · exact hag _ (by omega)
    · rw [hendpost]
      refine hag _ (by omega)
  have happ := hmid2 _ hpost2
  have hpreb := parse_prefix_lo s.mem pre _ _ _ h.parse_eq
  have hfull : parseBlocks m2 (s.brk - (pre ++ mid).length + mid2.length + pre.length)
      (s.heap_listp + 8) = some (pre ++ (mid2 ++ post)) := by
    refine parse_prefix_trans s.mem m2 pre s.brk _ _ (mid ++ post) _ h.parse_eq ?_ happ
    intro p hpm
    have hpb := hpreb p hpm
    have hpf := parse_facts s.mem _ _ _ h.parse_eq p (by simp [hpm])
    constructor
    · exact hag _ (by omega)
    · exact hag _ (by omega)
  have hend2 : endAddr (s.heap_listp + 8) (pre ++ (mid2 ++ post)) = s.brk := by
    rw [endAddr_append, endAddr_append, hsum, ← endAddr_append, ← endAddr_append]
    exact h.end_brk
  refine ⟨h.hl_align, h.hl_lo, ?_, ?_, ?_, hend2, h.brk_le, h.max_lt⟩
  · show GET m2 (s.heap_listp - 4) = 9
    rw [hag _ (by omega)]
    exact h.pro_hdr
  · show GET m2 s.heap_listp = 9
    rw [hag _ (by omega)]
    exact h.pro_ftr
  · show parseBlocks m2 s.brk (s.heap_listp + 8) = some _
    have hex := parse_fuel_exact m2 _ _ _ hfull
    refine parse_fuel_mono m2 _ _ s.brk _ hex ?_
    have hlenf := parse_len m2 _ _ _ hfull
    rw [hend2] at hlenf
    omega

/-- Flipping the tags of the block `b` to FREE (the two PUTs of mm_free)
re-parses to the same list with `b`'s allocation bit cleared. -/
theorem mark_free_WF (s : St) (pre post : List Blk) (b : Blk)
    (h : PreWF s (pre ++ b :: post)) :
    PreWF { s with mem := (PUT (PUT s.mem (b.addr - 4) (PACK b.size 0))
        (b.addr + b.size - 8) (PACK b.size 0)) }
      (pre ++ { b with alloc := 0 } :: post) := by
  have hba : b.addr = endAddr (s.heap_listp + 8) pre := parse_at _ _ _ _ _ _ h.parse_eq
  have hbf := parse_facts s.mem _ _ _ h.parse_eq b (by simp)
  have hfir := h.hl_lo
  have hblo := parse_lo s.mem _ _ _ h.parse_eq b (by simp)
  have hb16 : 16 ≤ b.size := hbf.2.2.1
  have hlt : b.size + 0 < 4294967296 := by
    have := h.max_lt
    have := h.brk_le
    have := h.end_brk
    have h9 := hblo.2.1
    rw [h.end_brk] at h9
    omega
  set m2 := PUT (PUT s.mem (b.addr - 4) (PACK b.size 0)) (b.addr + b.size - 8)
    (PACK b.size 0) with hm2
  have hHdr : GET m2 (b.addr - 4) = b.size := by
    rw [hm2, GET_PUT_ne _ _ _ _ (by omega),
      GET_PUT_PACK _ _ _ _ (by omega) (by omega) hlt]
    omega
  have hFtr : GET m2 (b.addr + b.size - 8) = b.size := by
    rw [hm2, GET_PUT_PACK _ _ _ _ (by omega) (by omega) hlt]
    omega
  have hS := PreWF_surgery s m2 s.rover pre [b] [{ b with alloc := 0 }] post
    (by simpa using h)
    (by simp [endAddr])
    (by
      intro r hr
      rw [← hba] at hr
      simp only [endAddr_cons, endAddr_nil] at hr
      rw [hm2, GET_PUT_ne _ _ _ _ (by omega), GET_PUT_ne _ _ _ _ (by omega)])
    (by
      intro f hpostp
      rw [← hba] at hpostp ⊢
      simp only [endAddr_cons, endAddr_nil] at hpostp
      have := parse_cons_intro m2 f b.addr b.size 0 post (by simpa using hHdr)
        hb16 hbf.2.2.2.1 (by omega) (by simpa using hFtr) hpostp
      simpa using this)
  simpa using hS

theorem coalesce_WF_case1 (t : St) (pre post : List Blk) (b : Blk) (psz nsz : Nat)
    (h : PreWF t (pre ++ b :: post)) (hfree : b.alloc = 0)
    (hprev : (pre = [] ∧ psz = 8) ∨
      ∃ pre0 p, pre = pre0 ++ [p] ∧ psz = p.size ∧ p.alloc = 1)
    (hnext : (post = [] ∧ nsz = 0) ∨
      ∃ n post1, post = n :: post1 ∧ nsz = n.size ∧ n.alloc = 1) :
    coalesce t b.addr = (t, b.addr) := by
  have hctx := PreWF_to_CoalCtx t pre post b psz 1 nsz 1 h hfree
    (by
      rcases hprev with ⟨h1, h2⟩ | ⟨pre0, p, h1, h2, h3⟩
      · exact Or.inl ⟨h1, h2, rfl⟩
      · exact Or.inr ⟨pre0, p, h1, h2, h3.symm⟩)
    (by
      rcases hnext with ⟨h1, h2⟩ | ⟨n, post1, h1, h2, h3⟩
      · exact Or.inl ⟨h1, h2, rfl⟩
      · exact Or.inr ⟨n, post1, h1, h2, h3.symm⟩)
  exact coalesce_case1 t b.addr psz b.size nsz hctx

theorem coalesce_WF_case2 (t : St) (pre post1 : List Blk) (b n : Blk) (psz : Nat)
    (h : PreWF t (pre ++ b :: n :: post1)) (hfree : b.alloc = 0) (hnfree : n.alloc = 0)
    (hprev : (pre = [] ∧ psz = 8) ∨
      ∃ pre0 p, pre = pre0 ++ [p] ∧ psz = p.size ∧ p.alloc = 1) :
    coalesce t b.addr =
      ({ t with
          mem := (PUT (PUT t.mem (b.addr - 4) (PACK (b.size + n.size) 0))
            (b.addr + (b.size + n.size) - 8) (PACK (b.size + n.size) 0)),
          rover := b.addr }, b.addr) ∧
    PreWF { t with
        mem := (PUT (PUT t.mem (b.addr - 4) (PACK (b.size + n.size) 0))
          (b.addr + (b.size + n.size) - 8) (PACK (b.size + n.size) 0)),
        rover := b.addr }
      (pre ++ { addr := b.addr, size := b.size + n.size, alloc := 0 } :: post1) := by
  have hctx := PreWF_to_CoalCtx t pre (n :: post1) b psz 1 n.size 0 h hfree
    (by
      rcases hprev with ⟨h1, h2⟩ | ⟨pre0, p, h1, h2, h3⟩
      · exact Or.inl ⟨h1, h2, rfl⟩
      · exact Or.inr ⟨pre0, p, h1, h2, h3.symm⟩)
    (Or.inr ⟨n, post1, rfl, rfl, hnfree.symm⟩)
  have heq := coalesce_case2 t b.addr psz b.size n.size hctx
  refine ⟨heq, ?_⟩
  have hba : b.addr = endAddr (t.heap_listp + 8) pre := parse_at _ _ _ _ _ _ h.parse_eq
  have hbf := parse_facts t.mem _ _ _ h.parse_eq b (by simp)
  have hnf := parse_facts t.mem _ _ _ h.parse_eq n (by simp)
  have hfir := h.hl_lo
  have hblo := parse_lo t.mem _ _ _ h.parse_eq b (by simp)
  have hnlo := parse_lo t.mem _ _ _ h.parse_eq n (by simp)
  have hb16 : 16 ≤ b.size := hbf.2.2.1
  have hn16 : 16 ≤ n.size := hnf.2.2.1
  have hnb : n.addr = b.addr + b.size := by
    have := parse_at t.mem t.brk (t.heap_listp + 8) (pre ++ [b]) n post1
      (by simpa using h.parse_eq)
    rw [endAddr_append, endAddr_cons, endAddr_nil, ← hba] at this
    exact this
  have hlt : b.size + n.size + 0 < 4294967296 := by
    have := h.max_lt
    have := h.brk_le
    have h9 := hnlo.2.1
    rw [h.end_brk] at h9
    have hbb2 := hblo.1
    omega
  have hsum8 : (b.size + n.size) % 8 = 0 := by
    have := hbf.2.2.2.1
    have := hnf.2.2.2.1
    omega
  set m2 := PUT (PUT t.mem (b.addr - 4) (PACK (b.size + n.size) 0))
    (b.addr + (b.size + n.size) - 8) (PACK (b.size + n.size) 0) with hm2
  have hHdr : GET m2 (b.addr - 4) = b.size + n.size := by
    rw [hm2, GET_PUT_ne _ _ _ _ (by omega),
      GET_PUT_PACK _ _ _ _ (by omega) (by omega) hlt]
    omega
  have hFtr : GET m2 (b.addr + (b.size + n.size) - 8) = b.size + n.size := by
    rw [hm2, GET_PUT_PACK _ _ _ _ (by omega) (by omega) hlt]
    omega
  have hS := PreWF_surgery t m2 b.addr pre [b, n]
    [{ addr := b.addr, size := b.size + n.size, alloc := 0 }] post1
    (by simpa using h)
    (by simp [endAddr])
    (by
      intro r hr
      rw [← hba] at hr
      simp only [endAddr_cons, endAddr_nil] at hr
      rw [hm2, GET_PUT_ne _ _ _ _ (by omega), GET_PUT_ne _ _ _ _ (by omega)])
    (by
      intro f hpostp
      rw [← hba] at hpostp ⊢
      simp only [endAddr_cons, endAddr_nil] at hpostp
      have := parse_cons_intro m2 f b.addr (b.size + n.size) 0 post1
        (by simpa using hHdr) (by omega) hsum8 (by omega) (by simpa using hFtr)
        (by rw [show b.addr + (b.size + n.size) = b.addr + b.size + n.size by omega]
            exact hpostp)
      simpa using this)
  simpa using hS

theorem coalesce_WF_case3 (t : St) (pre0 post : List Blk) (p b : Blk) (nsz : Nat)
    (h : PreWF t ((pre0 ++ [p]) ++ b :: post)) (hfree : b.alloc = 0) (hpfree : p.alloc = 0)
    (hnext : (post = [] ∧ nsz = 0) ∨
      ∃ n post1, post = n :: post1 ∧ nsz = n.size ∧ n.alloc = 1) :
    coalesce t b.addr =
      ({ t with
          mem := (PUT (PUT t.mem (b.addr + b.size - 8) (PACK (b.size + p.size) 0))
            (p.addr - 4) (PACK (b.size + p.size) 0)),
          rover := p.addr }, p.addr) ∧
    PreWF { t with
        mem := (PUT (PUT t.mem (b.addr + b.size - 8) (PACK (b.size + p.size) 0))
          (p.addr - 4) (PACK (b.size + p.size) 0)),
        rover := p.addr }
      (pre0 ++ { addr := p.addr, size := b.size + p.size, alloc := 0 } :: post) := by
  have hctx := PreWF_to_CoalCtx t (pre0 ++ [p]) post b p.size 0 nsz 1 h hfree
    (Or.inr ⟨pre0, p, rfl, rfl, hpfree.symm⟩)
    (by
      rcases hnext with ⟨h1, h2⟩ | ⟨n, post1, h1, h2, h3⟩
      · exact Or.inl ⟨h1, h2, rfl⟩
      · exact Or.inr ⟨n, post1, h1, h2, h3.symm⟩)
  have hba : b.addr = endAddr (t.heap_listp + 8) (pre0 ++ [p]) :=
    parse_at _ _ _ _ _ _ h.parse_eq
  have hpa : p.addr = endAddr (t.heap_listp + 8) pre0 := by
    refine parse_at t.mem t.brk _ pre0 p (b :: post) ?_
    simpa using h.parse_eq
  have hpadj : p.addr + p.size = b.addr := by
    rw [hba, endAddr_append, endAddr_cons, endAddr_nil, hpa]
  have hbf := parse_facts t.mem _ _ _ h.parse_eq b (by simp)
  have hpf := parse_facts t.mem _ _ _ h.parse_eq p (by simp)
  have hfir := h.hl_lo
  have hblo := parse_lo t.mem _ _ _ h.parse_eq b (by simp)
  have hplo := parse_lo t.mem _ _ _ h.parse_eq p (by simp)
  have hb16 : 16 ≤ b.size := hbf.2.2.1
  have hp16 : 16 ≤ p.size := hpf.2.2.1
  have hlt : b.size + p.size + 0 < 4294967296 := by
    have := h.max_lt
    have := h.brk_le
    have h9 := hblo.2.1
    rw [h.end_brk] at h9
    have := hplo.1
    omega
  have hsum8 : (b.size + p.size) % 8 = 0 := by
    have := hbf.2.2.2.1
    have := hpf.2.2.2.1
    omega
  have heq := coalesce_case3 t b.addr p.size b.size nsz hctx
  rw [show b.addr - p.size - 4 = p.addr - 4 by omega,
    show b.addr - p.size = p.addr by omega] at heq
  refine ⟨heq, ?_⟩
  set m2 := PUT (PUT t.mem (b.addr + b.size - 8) (PACK (b.size + p.size) 0))
    (p.addr - 4) (PACK (b.size + p.size) 0) with hm2
  have hHdr : GET m2 (p.addr - 4) = b.size + p.size := by
    rw [hm2, GET_PUT_PACK _ _ _ _ (by omega) (by omega) hlt]
    omega
  have hFtr : GET m2 (p.addr + (b.size + p.size) - 8) = b.size + p.size := by
    rw [show p.addr + (b.size + p.size) - 8 = b.addr + b.size - 8 by omega]
    rw [hm2, GET_PUT_ne _ _ _ _ (by omega),
      GET_PUT_PACK _ _ _ _ (by omega) (by omega) hlt]
    omega
  have hS := PreWF_surgery t m2 p.addr pre0 [p, b]
    [{ addr := p.addr, size := b.size + p.size, alloc := 0 }] post
    (by simpa using h)
    (by simp [endAddr]; omega)
    (by
      intro r hr
      rw [← hpa] at hr
      simp only [endAddr_cons, endAddr_nil] at hr
      rw [hm2, GET_PUT_ne _ _ _ _ (by omega), GET_PUT_ne _ _ _ _ (by omega)])
    (by
      intro f hpostp
      rw [← hpa] at hpostp ⊢
      simp only [endAddr_cons, endAddr_nil] at hpostp
      have := parse_cons_intro m2 f p.addr (b.size + p.size) 0 post
        (by simpa using hHdr) (by omega) hsum8 (by omega) (by simpa using hFtr)
        (by rw [show p.addr + (b.size + p.size) = p.addr + p.size + b.size by omega]
            exact hpostp)
      simpa using this)
  simpa using hS

theorem coalesce_WF_case4 (t : St) (pre0 post1 : List Blk) (p b n : Blk)
    (h : PreWF t ((pre0 ++ [p]) ++ b :: n :: post1)) (hfree : b.alloc = 0)
    (hpfree : p.alloc = 0) (hnfree : n.alloc = 0) :
    coalesce t b.addr =
      ({ t with
          mem := (PUT (PUT t.mem (p.addr - 4) (PACK (b.size + p.size + n.size) 0))
            (b.addr + b.size + n.size - 8) (PACK (b.size + p.size + n.size) 0)),
          rover := p.addr }, p.addr) ∧
    PreWF { t with
        mem := (PUT (PUT t.mem (p.addr - 4) (PACK (b.size + p.size + n.size) 0))
          (b.addr + b.size + n.size - 8) (PACK (b.size + p.size + n.size) 0)),
        rover := p.addr }
      (pre0 ++ { addr := p.addr, size := b.size + p.size + n.size, alloc := 0 } :: post1) := by
  have hctx := PreWF_to_CoalCtx t (pre0 ++ [p]) (n :: post1) b p.size 0 n.size 0 h hfree
    (Or.inr ⟨pre0, p, rfl, rfl, hpfree.symm⟩)
    (Or.inr ⟨n, post1, rfl, rfl, hnfree.symm⟩)
  have hba : b.addr = endAddr (t.heap_listp + 8) (pre0 ++ [p]) :=
    parse_at _ _ _ _ _ _ h.parse_eq
  have hpa : p.addr = endAddr (t.heap_listp + 8) pre0 := by
    refine parse_at t.mem t.brk _ pre0 p (b :: n :: post1) ?_
    simpa using h.parse_eq
  have hpadj : p.addr + p.size = b.addr := by
    rw [hba, endAddr_append, endAddr_cons, endAddr_nil, hpa]
  have hnb : n.addr = b.addr + b.size := by
    have := parse_at t.mem t.brk (t.heap_listp + 8) ((pre0 ++ [p]) ++ [b]) n post1
      (by simpa using h.parse_eq)
    rw [endAddr_append, endAddr_cons, endAddr_nil, ← hba] at this
    exact this
  have hbf := parse_facts t.mem _ _ _ h.parse_eq b (by simp)
  have hpf := parse_facts t.mem _ _ _ h.parse_eq p (by simp)
  have hnf := parse_facts t.mem _ _ _ h.parse_eq n (by simp)
  have hfir := h.hl_lo
  have hplo := parse_lo t.mem _ _ _ h.parse_eq p (by simp)
  have hnlo := parse_lo t.mem _ _ _ h.parse_eq n (by simp)
  have hb16 : 16 ≤ b.size := hbf.2.2.1
  have hp16 : 16 ≤ p.size := hpf.2.2.1
  have hn16 : 16 ≤ n.size := hnf.2.2.1
  have hlt : b.size + p.size + n.size + 0 < 4294967296 := by
    have := h.max_lt
    have := h.brk_le
    have h9 := hnlo.2.1
    rw [h.end_brk] at h9
    have := hplo.1
    omega
  have hsum8 : (b.size + p.size + n.size) % 8 = 0 := by
    have := hbf.2.2.2.1
    have := hpf.2.2.2.1
    have := hnf.2.2.2.1
    omega
  have heq := coalesce_case4 t b.addr p.size b.size n.size hctx
  rw [show b.addr - p.size - 4 = p.addr - 4 by omega,
    show b.addr - p.size = p.addr by omega] at heq
  refine ⟨heq, ?_⟩
  set m2 := PUT (PUT t.mem (p.addr - 4) (PACK (b.size + p.size + n.size) 0))
    (b.addr + b.size + n.size - 8) (PACK (b.size + p.size + n.size) 0) with hm2
  have hHdr : GET m2 (p.addr - 4) = b.size + p.size + n.size := by
    rw [hm2, GET_PUT_ne _ _ _ _ (by omega),
      GET_PUT_PACK _ _ _ _ (by omega) (by omega) hlt]
    omega
  have hFtr : GET m2 (p.addr + (b.size + p.size + n.size) - 8)
      = b.size + p.size + n.size := by
    rw [show p.addr + (b.size + p.size + n.size) - 8 = b.addr + b.size + n.size - 8 by omega]
    rw [hm2, GET_PUT_PACK _ _ _ _ (by omega) (by omega) hlt]
    omega
  have hS := PreWF_surgery t m2 p.addr pre0 [p, b, n]
    [{ addr := p.addr, size := b.size + p.size + n.size, alloc := 0 }] post1
    (by simpa using h)
    (by simp [endAddr]; omega)
    (by
      intro r hr
      rw [← hpa] at hr
      simp only [endAddr_cons, endAddr_nil] at hr
      rw [hm2, GET_PUT_ne _ _ _ _ (by omega), GET_PUT_ne _ _ _ _ (by omega)])
    (by
      intro f hpostp
      rw [← hpa] at hpostp ⊢
      simp only [endAddr_cons, endAddr_nil] at hpostp
      have := parse_cons_intro m2 f p.addr (b.size + p.size + n.size) 0 post1
        (by simpa using hHdr) (by omega) hsum8 (by omega) (by simpa using hFtr)
        (by rw [show p.addr + (b.size + p.size + n.size)
              = p.addr + p.size + b.size + n.size by omega]
            exact hpostp)
      simpa using this)
  simpa using hS


theorem NoTwoFree_decomp (A B : List Blk) (x : Blk) :
    NoTwoFree (A ++ x :: B) ↔
      (NoTwoFree A ∧ NoTwoFree B ∧
        (∀ a ∈ A.getLast?, ¬(a.alloc = 0 ∧ x.alloc = 0)) ∧
        (∀ c ∈ B.head?, ¬(x.alloc = 0 ∧ c.alloc = 0))) := by
  rw [NoTwoFree, List.chain'_append, List.chain'_cons']
  constructor
  · rintro ⟨h1, ⟨h2, h3⟩, h4⟩
    refine ⟨h1, h3, fun a ha => h4 a ha x ?_, h2⟩
    simp
  · rintro ⟨h1, h2, h3, h4⟩
    refine ⟨h1, ⟨h4, h2⟩, fun a ha y hy => ?_⟩
    simp at hy
    subst hy
    exact h3 a ha

theorem WFwith.of_parts {s : St} {L : List Blk} (hP : PreWF s L) (hn : NoTwoFree L)
    (hr : s.rover ∈ L.map Blk.addr ∨ s.rover = s.brk) : WFwith s L :=
  ⟨hP.hl_align, hP.hl_lo, hP.pro_hdr, hP.pro_ftr, hP.parse_eq, hP.end_brk, hn, hr,
    hP.brk_le, hP.max_lt⟩

/-- Coalescing a freshly freed block on an otherwise well-formed heap yields a
well-formed heap again: the result is one FREE block (at least as large as the
input) replacing the input block and any FREE neighbours, and the returned
pointer is that block's payload address. -/
theorem coalesce_mark_WF (t : St) (pre post : List Blk) (b : Blk)
    (hP : PreWF t (pre ++ b :: post)) (hfree : b.alloc = 0)
    (hnpre : NoTwoFree pre) (hnpost : NoTwoFree post)
    (hrov : t.rover ∈ (pre ++ b :: post).map Blk.addr ∨ t.rover = t.brk) :
    ∃ pre' post' c, WFwith (coalesce t b.addr).1 (pre' ++ c :: post') ∧
      (coalesce t b.addr).2 = c.addr ∧ c.alloc = 0 ∧ b.size ≤ c.size ∧
      (∀ x ∈ pre ++ post, x.alloc = 1 → x ∈ pre' ++ post') := by
  rcases hpostshape : post with _ | ⟨n, post1⟩
  · subst hpostshape
    rcases hpreshape : pre with _ | _
    case nil =>
      subst hpreshape
      have heq := coalesce_WF_case1 t [] [] b 8 0 hP hfree (Or.inl ⟨rfl, rfl⟩)
        (Or.inl ⟨rfl, rfl⟩)
      rw [heq]
      exact ⟨[], [], b, WFwith.of_parts hP (by simp [NoTwoFree]) hrov, rfl, hfree, le_refl _,
        by simp⟩
    case cons =>
      rw [← hpreshape]
      obtain ⟨pre0, p, rfl⟩ := pre.eq_nil_or_concat.resolve_left (by simp [hpreshape])
      clear hpreshape
      simp only [List.concat_eq_append]
      have hP2 : PreWF t ((pre0 ++ [p]) ++ b :: []) := by
        simpa [List.concat_eq_append] using hP
      have hnpre2 : NoTwoFree (pre0 ++ [p]) := by
        simpa [List.concat_eq_append] using hnpre
      have hrov2 : t.rover ∈ ((pre0 ++ [p]) ++ b :: []).map Blk.addr ∨ t.rover = t.brk := by
        simpa [List.concat_eq_append] using hrov
      have hpfacts := parse_facts t.mem _ _ _ hP2.parse_eq p (by simp)
      have hdecpre := (NoTwoFree_decomp pre0 [] p).1 (by simpa using hnpre2)
      rcases Nat.le_one_iff_eq_zero_or_eq_one.1 hpfacts.2.2.2.2 with hpa | hpa
      · -- previous free: case 3 with empty post
        have h3 := coalesce_WF_case3 t pre0 [] p b 0 hP2 hfree hpa (Or.inl ⟨rfl, rfl⟩)
        rw [h3.1]
        refine ⟨pre0, [], { addr := p.addr, size := b.size + p.size, alloc := 0 },
          WFwith.of_parts h3.2 ?_ ?_, rfl, rfl, by dsimp only; omega, ?_⟩
        · rw [NoTwoFree_decomp]
          refine ⟨hdecpre.1, by simp [NoTwoFree], ?_, by simp⟩
          intro a ha
          have := hdecpre.2.2.1 a ha
          dsimp only
          omega
        · left
          simp
        · intro x hx h1
          simp only [List.append_nil] at hx ⊢
          rcases List.mem_append.1 hx with hx0 | hxp
          · exact hx0
          · simp at hxp
            subst hxp
            omega
      · -- previous allocated: case 1
        have h1 := coalesce_WF_case1 t (pre0 ++ [p]) [] b p.size 0 hP2 hfree
          (Or.inr ⟨pre0, p, rfl, rfl, hpa⟩) (Or.inl ⟨rfl, rfl⟩)
        rw [h1]
        refine ⟨pre0 ++ [p], [], b, WFwith.of_parts hP2 ?_ hrov2, rfl, hfree, le_refl _,
          fun x hx _ => hx⟩
        rw [NoTwoFree_decomp]
        refine ⟨hnpre2, by simp [NoTwoFree], ?_, by simp⟩
        intro a ha
        simp at ha
        subst ha
        omega
  · subst hpostshape
    have hnfacts := parse_facts t.mem _ _ _ hP.parse_eq n (by simp)
    have hdecpost := (NoTwoFree_decomp [] post1 n).1 (by simpa using hnpost)
    rcases hpreshape : pre with _ | _
    case nil =>
      subst hpreshape
      rcases Nat.le_one_iff_eq_zero_or_eq_one.1 hnfacts.2.2.2.2 with hna | hna
      · -- next free, no previous: case 2
        have h2 := coalesce_WF_case2 t [] post1 b n 8 hP hfree hna (Or.inl ⟨rfl, rfl⟩)
        rw [h2.1]
        refine ⟨[], post1, { addr := b.addr, size := b.size + n.size, alloc := 0 },
          WFwith.of_parts h2.2 ?_ ?_, rfl, rfl, by dsimp only; omega, ?_⟩
        · rw [NoTwoFree_decomp]
          refine ⟨by simp [NoTwoFree], hdecpost.2.1, by simp, ?_⟩
          intro c hc
          have := hdecpost.2.2.2 c hc
          dsimp only
          omega
        · left
          simp
        · intro x hx h1
          simp only [List.nil_append] at hx ⊢
          rcases List.mem_cons.1 hx with rfl | hx1
          · omega
          · exact hx1
      · -- next allocated, no previous: case 1
        have h1 := coalesce_WF_case1 t [] (n :: post1) b 8 n.size hP hfree
          (Or.inl ⟨rfl, rfl⟩) (Or.inr ⟨n, post1, rfl, rfl, hna⟩)
        rw [h1]
        refine ⟨[], n :: post1, b, WFwith.of_parts hP ?_ hrov, rfl, hfree, le_refl _,
          fun x hx _ => hx⟩
        rw [NoTwoFree_decomp]
        refine ⟨by simp [NoTwoFree], hnpost, by simp, ?_⟩
        intro c hc
        simp at hc
        subst hc
        omega
    case cons =>
      rw [← hpreshape]
      obtain ⟨pre0, p, rfl⟩ := pre.eq_nil_or_concat.resolve_left (by simp [hpreshape])
      clear hpreshape
      simp only [List.concat_eq_append]
      have hP2 : PreWF t ((pre0 ++ [p]) ++ b :: n :: post1) := by
        simpa [List.concat_eq_append] using hP
      have hnpre2 : NoTwoFree (pre0 ++ [p]) := by
        simpa [List.concat_eq_append] using hnpre
      have hrov2 : t.rover ∈ ((pre0 ++ [p]) ++ b :: n :: post1).map Blk.addr ∨
          t.rover = t.brk := by
        simpa [List.concat_eq_append] using hrov
      have hpfacts := parse_facts t.mem _ _ _ hP2.parse_eq p (by simp)
      have hdecpre := (NoTwoFree_decomp pre0 [] p).1 (by simpa using hnpre2)
      rcases Nat.le_one_iff_eq_zero_or_eq_one.1 hnfacts.2.2.2.2 with hna | hna <;>
        rcases Nat.le_one_iff_eq_zero_or_eq_one.1 hpfacts.2.2.2.2 with hpa | hpa
      · -- both free: case 4
        have h4 := coalesce_WF_case4 t pre0 post1 p b n hP2 hfree hpa hna
        rw [h4.1]
        refine ⟨pre0, post1, { addr := p.addr, size := b.size + p.size + n.size, alloc := 0 },
          WFwith.of_parts h4.2 ?_ ?_, rfl, rfl, by dsimp only; omega, ?_⟩
        · rw [NoTwoFree_decomp]
          refine ⟨hdecpre.1, hdecpost.2.1, ?_, ?_⟩
          · intro a ha
            have := hdecpre.2.2.1 a ha
            dsimp only
            omega
          · intro c hc
            have := hdecpost.2.2.2 c hc
            dsimp only
            omega
        · left
          simp
        · intro x hx h1
          rcases List.mem_append.1 hx with hx0 | hx1
          · rcases List.mem_append.1 hx0 with hx2 | hxp
            · exact List.mem_append.2 (Or.inl hx2)
            · simp at hxp
              subst hxp
              omega
          · rcases List.mem_cons.1 hx1 with rfl | hx2
            · omega
            · exact List.mem_append.2 (Or.inr hx2)
      · -- next free, previous allocated: case 2
        have h2 := coalesce_WF_case2 t (pre0 ++ [p]) post1 b n p.size hP2 hfree hna
          (Or.inr ⟨pre0, p, rfl, rfl, hpa⟩)
        rw [h2.1]
        refine ⟨pre0 ++ [p], post1, { addr := b.addr, size := b.size + n.size, alloc := 0 },
          WFwith.of_parts h2.2 ?_ ?_, rfl, rfl, by dsimp only; omega, ?_⟩
        · rw [NoTwoFree_decomp]
          refine ⟨hnpre2, hdecpost.2.1, ?_, ?_⟩
          · intro a ha
            simp at ha
            subst ha
            omega
          · intro c hc
            have := hdecpost.2.2.2 c hc
            dsimp only
            omega
        · left
          simp
        · intro x hx h1
          rcases List.mem_append.1 hx with hx0 | hx1
          · exact List.mem_append.2 (Or.inl hx0)
          · rcases List.mem_cons.1 hx1 with rfl | hx2
            · omega
            · exact List.mem_append.2 (Or.inr hx2)
      · -- next allocated, previous free: case 3
        have h3 := coalesce_WF_case3 t pre0 (n :: post1) p b n.size hP2 hfree hpa
          (Or.inr ⟨n, post1, rfl, rfl, hna⟩)
        rw [h3.1]
        refine ⟨pre0, n :: post1, { addr := p.addr, size := b.size + p.size, alloc := 0 },
          WFwith.of_parts h3.2 ?_ ?_, rfl, rfl, by dsimp only; omega, ?_⟩
        · rw [NoTwoFree_decomp]
          refine ⟨hdecpre.1, hnpost, ?_, ?_⟩
          · intro a ha
            have := hdecpre.2.2.1 a ha
            dsimp only
            omega
          · intro c hc
            simp at hc
            subst hc
            omega
        · left
          simp
        · intro x hx h1
          rcases List.mem_append.1 hx with hx0 | hx1
          · rcases List.mem_append.1 hx0 with hx2 | hxp
            · exact List.mem_append.2 (Or.inl hx2)
            · simp at hxp
              subst hxp
              omega
          · exact List.mem_append.2 (Or.inr hx1)
      · -- both allocated: case 1
        have h1 := coalesce_WF_case1 t (pre0 ++ [p]) (n :: post1) b p.size n.size hP2 hfree
          (Or.inr ⟨pre0, p, rfl, rfl, hpa⟩) (Or.inr ⟨n, post1, rfl, rfl, hna⟩)
        rw [h1]
        refine ⟨pre0 ++ [p], n :: post1, b, WFwith.of_parts hP2 ?_ hrov2, rfl, hfree,
          le_refl _, fun x hx _ => hx⟩
        rw [NoTwoFree_decomp]
        refine ⟨hnpre2, hnpost, ?_, ?_⟩
        · intro a ha
          simp at ha
          subst ha
          omega
        · intro c hc
          simp at hc
          subst hc
          omega
/-- Freeing an allocated block of a well-formed heap yields a well-formed heap;
the freed block's storage ends up inside a FREE block, and every other
allocated block survives untouched. -/
theorem mm_free_WF (s : St) (pre post : List Blk) (b : Blk)
    (h : WFwith s (pre ++ b :: post)) (halloc : b.alloc = 1) :
    ∃ pre' post' c, WFwith (mm_free s b.addr) (pre' ++ c :: post') ∧ c.alloc = 0 ∧
      (∀ x ∈ pre ++ post, x.alloc = 1 → x ∈ pre' ++ post') := by
  have hP := h.pre
  have hbf := parse_facts s.mem _ _ _ hP.parse_eq b (by simp)
  have hblo := parse_lo s.mem _ _ _ hP.parse_eq b (by simp)
  have hfir := hP.hl_lo
  have hb0 : ¬ (b.addr = 0) := by
    have := hblo.1
    omega
  have hsz8 : b.size % 8 = 0 := hbf.2.2.2.1
  have h16 : 16 ≤ b.size := hbf.2.2.1
  have hszlt : b.size < 4294967296 := by
    have h1 := hblo.2.1
    rw [hP.end_brk] at h1
    have := hP.brk_le
    have := hP.max_lt
    omega
  have hgs : GET_SIZE s.mem (b.addr - 4) = b.size := by
    simp only [GET_SIZE]
    rw [hbf.1, halloc]
    omega
  have hfst : GET (PUT s.mem (b.addr - 4) (PACK b.size 0)) (b.addr - 4) = b.size := by
    rw [GET_PUT_same, PACK_eq b.size 0 hsz8 (by omega)]
    omega
  have hftrp : FTRP (PUT s.mem (b.addr - 4) (PACK b.size 0)) b.addr
      = b.addr + b.size - 8 := by
    simp only [FTRP, HDRP, WSIZE, DSIZE, GET_SIZE]
    rw [hfst]
    omega
  have hstep : mm_free s b.addr =
      (coalesce { s with mem := (PUT (PUT s.mem (b.addr - 4) (PACK b.size 0))
        (b.addr + b.size - 8) (PACK b.size 0)) } b.addr).1 := by
    simp only [mm_free, HDRP, WSIZE, if_neg hb0, hgs, hftrp]
  have hmark := mark_free_WF s pre post b hP
  have hdec := (NoTwoFree_decomp pre post b).1 h.noadj
  have hrov2 : s.rover ∈ (pre ++ { b with alloc := 0 } :: post).map Blk.addr ∨
      s.rover = s.brk := by
    rcases h.rover_ok with hr | hr
    · left
      simpa using hr
    · right
      exact hr
  have hcoal := coalesce_mark_WF
    { s with mem := (PUT (PUT s.mem (b.addr - 4) (PACK b.size 0))
        (b.addr + b.size - 8) (PACK b.size 0)) }
    pre post { b with alloc := 0 } hmark rfl hdec.1 hdec.2.1 hrov2
  obtain ⟨pre', post', c, hWF, hret, hca, hsz, hpres⟩ := hcoal
  rw [hstep]
  exact ⟨pre', post', c, hWF, hca, hpres⟩
set_option maxHeartbeats 1600000 in
/-- Placing an `asize`-byte allocated block into a FREE block of a well-formed
heap yields a well-formed heap: the block is either split into an allocated
part and a FREE remainder, or fully allocated, and the surrounding blocks are
untouched. -/
theorem place_WF (s : St) (pre post : List Blk) (b : Blk) (asize : Nat)
    (h : WFwith s (pre ++ b :: post)) (hfree : b.alloc = 0)
    (ha16 : 16 ≤ asize) (ha8 : asize % 8 = 0) (hle : asize ≤ b.size) :
    ∃ post2 sz, asize ≤ sz ∧
      WFwith (place s b.addr asize)
        (pre ++ { addr := b.addr, size := sz, alloc := 1 } :: (post2 ++ post)) := by
  have hP := h.pre
  have hbf := parse_facts s.mem _ _ _ hP.parse_eq b (by simp)
  have hblo := parse_lo s.mem _ _ _ hP.parse_eq b (by simp)
  have hfir := hP.hl_lo
  have h16b : 16 ≤ b.size := hbf.2.2.1
  have hsz8 : b.size % 8 = 0 := hbf.2.2.2.1
  have hba : b.addr = endAddr (s.heap_listp + 8) pre := parse_at _ _ _ _ _ _ hP.parse_eq
  have hlo24 : 24 ≤ b.addr := by
    have := hblo.1
    omega
  have hub : b.addr + b.size ≤ s.brk := by
    have h1 := hblo.2.1
    rw [hP.end_brk] at h1
    exact h1
  have hszlt : b.addr + b.size < 4294967296 := by
    have := hP.brk_le
    have := hP.max_lt
    omega
  have hdec := (NoTwoFree_decomp pre post b).1 h.noadj
  have hcs : GET_SIZE s.mem (b.addr - 4) = b.size := by
    simp only [GET_SIZE]
    rw [hbf.1, hfree]
    omega
  by_cases hsp : 2 * DSIZE ≤ b.size - asize
  · -- split: allocated part of size asize, FREE remainder
    have hsp16 : 16 ≤ b.size - asize := by
      simp only [DSIZE] at hsp
      omega
    refine ⟨[{ addr := b.addr + asize, size := b.size - asize, alloc := 0 }], asize,
      le_refl _, ?_⟩
    have hH1 : GET (PUT s.mem (b.addr - 4) (PACK asize 1)) (b.addr - 4) = asize + 1 := by
      rw [GET_PUT_same, PACK_eq _ _ ha8 (by omega)]
      omega
    have hftr1 : FTRP (PUT s.mem (b.addr - 4) (PACK asize 1)) b.addr
        = b.addr + asize - 8 := by
      simp only [FTRP, HDRP, WSIZE, DSIZE, GET_SIZE]
      rw [hH1]
      omega
    have hH2 : GET (PUT (PUT s.mem (b.addr - 4) (PACK asize 1)) (b.addr + asize - 8)
        (PACK asize 1)) (b.addr - 4) = asize + 1 := by
      rw [GET_PUT_ne _ _ _ _ (by omega)]
      exact hH1
    have hnext1 : NEXT_BLKP (PUT (PUT s.mem (b.addr - 4) (PACK asize 1))
        (b.addr + asize - 8) (PACK asize 1)) b.addr = b.addr + asize := by
      simp only [NEXT_BLKP, HDRP, WSIZE, GET_SIZE]
      rw [hH2]
      omega
    have hH3 : GET (PUT (PUT (PUT s.mem (b.addr - 4) (PACK asize 1))
        (b.addr + asize - 8) (PACK asize 1)) (b.addr + asize - 4)
        (PACK (b.size - asize) 0)) (b.addr + asize - 4) = b.size - asize := by
      rw [GET_PUT_same, PACK_eq _ _ (by omega) (by omega)]
      omega
    have hftr2 : FTRP (PUT (PUT (PUT s.mem (b.addr - 4) (PACK asize 1))
        (b.addr + asize - 8) (PACK asize 1)) (b.addr + asize - 4)
        (PACK (b.size - asize) 0)) (b.addr + asize) = b.addr + b.size - 8 := by
      simp only [FTRP, HDRP, WSIZE, DSIZE, GET_SIZE]
      rw [hH3]
      omega
    have hplace : place s b.addr asize = { s with
        mem := (PUT (PUT (PUT (PUT s.mem (b.addr - 4) (PACK asize 1))
          (b.addr + asize - 8) (PACK asize 1)) (b.addr + asize - 4)
          (PACK (b.size - asize) 0)) (b.addr + b.size - 8) (PACK (b.size - asize) 0)),
        rover := b.addr + asize } := by
      simp only [place, HDRP, WSIZE, hcs, hftr1, hnext1, hftr2]
      rw [if_pos hsp]
    rw [hplace]
    have hS := PreWF_surgery s
      (PUT (PUT (PUT (PUT s.mem (b.addr - 4) (PACK asize 1))
        (b.addr + asize - 8) (PACK asize 1)) (b.addr + asize - 4)
        (PACK (b.size - asize) 0)) (b.addr + b.size - 8) (PACK (b.size - asize) 0))
      (b.addr + asize) pre [b]
      [{ addr := b.addr, size := asize, alloc := 1 },
       { addr := b.addr + asize, size := b.size - asize, alloc := 0 }] post
      (by simpa using hP)
      (by
        simp only [endAddr, List.map_cons, List.map_nil, List.sum_cons, List.sum_nil]
        omega)
      (by
        intro r hr
        rw [← hba] at hr
        simp only [endAddr_cons, endAddr_nil] at hr
        rw [GET_PUT_ne _ _ _ _ (by omega), GET_PUT_ne _ _ _ _ (by omega),
          GET_PUT_ne _ _ _ _ (by omega), GET_PUT_ne _ _ _ _ (by omega)])
      (by
        intro f hpostp
        rw [← hba] at hpostp ⊢
        simp only [endAddr_cons, endAddr_nil] at hpostp
        refine parse_cons_intro _ (f + 1) b.addr asize 1 _ ?_ ha16 ha8 (by omega) ?_
          (parse_cons_intro _ f (b.addr + asize) (b.size - asize) 0 post ?_ (by omega)
            (by omega) (by omega) ?_ ?_)
        · rw [GET_PUT_ne _ _ _ _ (by omega), GET_PUT_ne _ _ _ _ (by omega),
            GET_PUT_ne _ _ _ _ (by omega), GET_PUT_same, PACK_eq _ _ ha8 (by omega)]
          omega
        · rw [GET_PUT_ne _ _ _ _ (by omega), GET_PUT_ne _ _ _ _ (by omega),
            GET_PUT_same, PACK_eq _ _ ha8 (by omega)]
          omega
        · rw [GET_PUT_ne _ _ _ _ (by omega), GET_PUT_same,
            PACK_eq _ _ (by omega) (by omega)]
          omega
        · rw [show b.addr + asize + (b.size - asize) - 8 = b.addr + b.size - 8 from
            by omega, GET_PUT_same, PACK_eq _ _ (by omega) (by omega)]
          omega
        · rw [show b.addr + asize + (b.size - asize) = b.addr + b.size from by omega]
          exact hpostp)
    refine WFwith.of_parts hS ?_ ?_
    · refine (NoTwoFree_decomp pre _ _).2 ⟨hdec.1, ?_, ?_, ?_⟩
      · refine (NoTwoFree_decomp [] post _).2 ⟨by simp [NoTwoFree], hdec.2.1, by simp, ?_⟩
        intro c hc
        have := hdec.2.2.2 c hc
        dsimp only
        omega
      · intro a ha
        dsimp only
        omega
      · intro c hc
        simp at hc
        subst hc
        dsimp only
        omega
    · left
      simp
  · -- no split: the whole block becomes allocated
    refine ⟨[], b.size, hle, ?_⟩
    have hrov2 : b.addr + b.size ∈
        (pre ++ ({ addr := b.addr, size := b.size, alloc := 1 } : Blk) :: post).map Blk.addr
        ∨ b.addr + b.size = s.brk := by
      rcases post with _ | ⟨n, post1⟩
      · right
        have h1 : endAddr (s.heap_listp + 8) (pre ++ [b]) = s.brk := hP.end_brk
        rw [endAddr_append, ← hba] at h1
        simp only [endAddr, List.map_cons, List.map_nil, List.sum_cons, List.sum_nil] at h1
        omega
      · have hn : n.addr = endAddr (s.heap_listp + 8) (pre ++ [b]) :=
          parse_at s.mem s.brk (s.heap_listp + 8) (pre ++ [b]) n post1
            (by simpa using hP.parse_eq)
        rw [endAddr_append, ← hba] at hn
        simp only [endAddr, List.map_cons, List.map_nil, List.sum_cons, List.sum_nil] at hn
        left
        rw [show b.addr + b.size = n.addr from by omega]
        simp
    have hH1 : GET (PUT s.mem (b.addr - 4) (PACK b.size 1)) (b.addr - 4) = b.size + 1 := by
      rw [GET_PUT_same, PACK_eq _ _ hsz8 (by omega)]
      omega
    have hftr1 : FTRP (PUT s.mem (b.addr - 4) (PACK b.size 1)) b.addr
        = b.addr + b.size - 8 := by
      simp only [FTRP, HDRP, WSIZE, DSIZE, GET_SIZE]
      rw [hH1]
      omega
    have hH2 : GET (PUT (PUT s.mem (b.addr - 4) (PACK b.size 1)) (b.addr + b.size - 8)
        (PACK b.size 1)) (b.addr - 4) = b.size + 1 := by
      rw [GET_PUT_ne _ _ _ _ (by omega)]
      exact hH1
    have hnext1 : NEXT_BLKP (PUT (PUT s.mem (b.addr - 4) (PACK b.size 1))
        (b.addr + b.size - 8) (PACK b.size 1)) b.addr = b.addr + b.size := by
      simp only [NEXT_BLKP, HDRP, WSIZE, GET_SIZE]
      rw [hH2]
      omega
    have hplace : place s b.addr asize = { s with
        mem := (PUT (PUT s.mem (b.addr - 4) (PACK b.size 1)) (b.addr + b.size - 8)
          (PACK b.size 1)),
        rover := b.addr + b.size } := by
      simp only [place, HDRP, WSIZE, hcs, hftr1, hnext1]
      rw [if_neg hsp]
    rw [hplace]
    have hS := PreWF_surgery s
      (PUT (PUT s.mem (b.addr - 4) (PACK b.size 1)) (b.addr + b.size - 8) (PACK b.size 1))
      (b.addr + b.size) pre [b] [{ addr := b.addr, size := b.size, alloc := 1 }] post
      (by simpa using hP)
      (by
        simp only [endAddr, List.map_cons, List.map_nil, List.sum_cons, List.sum_nil])
      (by
        intro r hr
        rw [← hba] at hr
        simp only [endAddr_cons, endAddr_nil] at hr
        rw [GET_PUT_ne _ _ _ _ (by omega), GET_PUT_ne _ _ _ _ (by omega)])
      (by
        intro f hpostp
        rw [← hba] at hpostp ⊢
        simp only [endAddr_cons, endAddr_nil] at hpostp
        refine parse_cons_intro _ f b.addr b.size 1 post ?_ h16b hsz8 (by omega) ?_ hpostp
        · exact hH2
        · rw [GET_PUT_same, PACK_eq _ _ hsz8 (by omega)]
          omega)
    refine WFwith.of_parts hS ?_ hrov2
    refine (NoTwoFree_decomp pre post _).2 ⟨hdec.1, hdec.2.1, ?_, ?_⟩
    · intro a ha
      dsimp only
      omega
    · intro c hc
      dsimp only
      omega
set_option maxHeartbeats 1600000 in
/-- Extending a well-formed heap appends one FREE block (and a fresh epilogue)
and coalesces it with the last block: the result is well-formed, the returned
payload pointer addresses a FREE block at least as large as the extension, and
every allocated block is untouched. -/
theorem extend_heap_WF (s : St) (L : List Blk) (words size : Nat)
    (hsz : size = (if words % 2 = 1 then (words + 1) * WSIZE else words * WSIZE))
    (h : PreWF s L) (hn : NoTwoFree L) (h16 : 16 ≤ size)
    (hsucc : s.brk + size ≤ s.maxAddr) :
    ∃ pre' post' c, WFwith (extend_heap s words).1 (pre' ++ c :: post') ∧
      (extend_heap s words).2 = c.addr ∧ c.alloc = 0 ∧ size ≤ c.size ∧
      (∀ x ∈ L, x.alloc = 1 → x ∈ pre' ++ post') := by
  have hsz8 : size % 8 = 0 := by
    by_cases h2 : words % 2 = 1
    · rw [hsz, if_pos h2]
      simp only [WSIZE]
      omega
    · rw [hsz, if_neg h2]
      simp only [WSIZE]
      omega
  have hfir := h.hl_lo
  have hhl8 : s.heap_listp + 8 ≤ s.brk := by
    have h1 := endAddr_le_self (s.heap_listp + 8) L
    rw [h.end_brk] at h1
    exact h1
  have hmax := h.max_lt
  have hbrklt : s.brk + size + 8 < 4294967296 := by
    omega
  have hsbrk : mem_sbrk s size = some (s.brk, { s with brk := s.brk + size }) := by
    simp only [mem_sbrk, if_pos hsucc]
  have hF1 : GET (PUT s.mem (s.brk - 4) (PACK size 0)) (s.brk - 4) = size := by
    rw [GET_PUT_same, PACK_eq _ _ hsz8 (by omega)]
    omega
  have hftr1 : FTRP (PUT s.mem (s.brk - 4) (PACK size 0)) s.brk = s.brk + size - 8 := by
    simp only [FTRP, HDRP, WSIZE, DSIZE, GET_SIZE]
    rw [hF1]
    omega
  have hF2 : GET (PUT (PUT s.mem (s.brk - 4) (PACK size 0)) (s.brk + size - 8)
      (PACK size 0)) (s.brk - 4) = size := by
    rw [GET_PUT_ne _ _ _ _ (by omega)]
    exact hF1
  have hnext1 : NEXT_BLKP (PUT (PUT s.mem (s.brk - 4) (PACK size 0)) (s.brk + size - 8)
      (PACK size 0)) s.brk = s.brk + size := by
    simp only [NEXT_BLKP, HDRP, WSIZE, GET_SIZE]
    rw [hF2]
    omega
  have hext : extend_heap s words = coalesce { s with
      mem := (PUT (PUT (PUT s.mem (s.brk - 4) (PACK size 0))
        (s.brk + size - 8) (PACK size 0)) (s.brk + size - 4) (PACK 0 1)),
      brk := s.brk + size, rover := s.brk } s.brk := by
    have hsz4 : size = (if words % 2 = 1 then (words + 1) * 4 else words * 4) := by
      simpa [WSIZE] using hsz
    simp only [extend_heap, WSIZE, ← hsz4, hsbrk, HDRP, hftr1, hnext1]
  have hnew : parseBlocks (PUT (PUT (PUT s.mem (s.brk - 4) (PACK size 0))
      (s.brk + size - 8) (PACK size 0)) (s.brk + size - 4) (PACK 0 1)) 2 s.brk
      = some [{ addr := s.brk, size := size, alloc := 0 }] := by
    refine parse_cons_intro _ 1 s.brk size 0 [] ?_ h16 hsz8 (by omega) ?_
      (parse_nil_intro _ 0 (s.brk + size) ?_)
    · rw [GET_PUT_ne _ _ _ _ (by omega)]
      rw [show size + 0 = size from rfl]
      exact hF2
    · rw [GET_PUT_ne _ _ _ _ (by omega), GET_PUT_same, PACK_eq _ _ hsz8 (by omega)]
      omega
    · rw [GET_PUT_same]
      simp [PACK]
  have hag : ∀ q ∈ L, GET (PUT (PUT (PUT s.mem (s.brk - 4) (PACK size 0))
        (s.brk + size - 8) (PACK size 0)) (s.brk + size - 4) (PACK 0 1)) (q.addr - 4)
        = GET s.mem (q.addr - 4) ∧
      GET (PUT (PUT (PUT s.mem (s.brk - 4) (PACK size 0))
        (s.brk + size - 8) (PACK size 0)) (s.brk + size - 4) (PACK 0 1))
        (q.addr + q.size - 8) = GET s.mem (q.addr + q.size - 8) := by
    intro q hq
    have hql := parse_lo s.mem L s.brk (s.heap_listp + 8) h.parse_eq q hq
    have hqf := parse_facts s.mem L s.brk (s.heap_listp + 8) h.parse_eq q hq
    rw [h.end_brk] at hql
    constructor
    · rw [GET_PUT_ne _ _ _ _ (by omega), GET_PUT_ne _ _ _ _ (by omega),
        GET_PUT_ne _ _ _ _ (by omega)]
    · rw [GET_PUT_ne _ _ _ _ (by omega), GET_PUT_ne _ _ _ _ (by omega),
        GET_PUT_ne _ _ _ _ (by omega)]
  have htrans := parse_prefix_trans s.mem
    (PUT (PUT (PUT s.mem (s.brk - 4) (PACK size 0)) (s.brk + size - 8) (PACK size 0))
      (s.brk + size - 4) (PACK 0 1)) L s.brk 2 (s.heap_listp + 8) []
    [{ addr := s.brk, size := size, alloc := 0 }] (by simpa using h.parse_eq) hag
    (by rw [h.end_brk]; exact hnew)
  have hlen := h.length_fuel
  have hpre3 : PreWF { s with
      mem := (PUT (PUT (PUT s.mem (s.brk - 4) (PACK size 0))
        (s.brk + size - 8) (PACK size 0)) (s.brk + size - 4) (PACK 0 1)),
      brk := s.brk + size, rover := s.brk }
      (L ++ [{ addr := s.brk, size := size, alloc := 0 }]) := by
    refine ⟨h.hl_align, h.hl_lo, ?_, ?_, ?_, ?_, ?_, ?_⟩
    · show GET _ (s.heap_listp - 4) = 9
      rw [GET_PUT_ne _ _ _ _ (by omega), GET_PUT_ne _ _ _ _ (by omega),
        GET_PUT_ne _ _ _ _ (by omega)]
      exact h.pro_hdr
    · show GET _ s.heap_listp = 9
      rw [GET_PUT_ne _ _ _ _ (by omega), GET_PUT_ne _ _ _ _ (by omega),
        GET_PUT_ne _ _ _ _ (by omega)]
      exact h.pro_ftr
    · show parseBlocks _ (s.brk + size) (s.heap_listp + 8) = some _
      refine parse_fuel_mono _ _ (2 + L.length) (s.brk + size) _ htrans (by omega)
    · show endAddr (s.heap_listp + 8) _ = s.brk + size
      rw [endAddr_append]
      simp only [endAddr, List.map_cons, List.map_nil, List.sum_cons, List.sum_nil]
      have := h.end_brk
      simp only [endAddr] at this
      omega
    · exact hsucc
    · exact hmax
  have hcoal := coalesce_mark_WF _ L [] { addr := s.brk, size := size, alloc := 0 }
    (by simpa using hpre3) rfl hn (by simp [NoTwoFree]) (Or.inl (by simp))
  obtain ⟨pre', post', c, hWF, hret, hca, hsz', hpres⟩ := hcoal
  refine ⟨pre', post', c, ?_, ?_, hca, hsz', ?_⟩
  · rw [hext]
    exact hWF
  · rw [hext]
    exact hret
  · intro x hx h1
    exact hpres x (by simpa using hx) h1
/-- A well-formed heap splits at the rover: the rover is the end address of
some prefix of the block list. -/
theorem rover_split (s : St) (L : List Blk) (h : WFwith s L) :
    ∃ L1 L2, L = L1 ++ L2 ∧ s.rover = endAddr (s.heap_listp + 8) L1 := by
  rcases h.rover_ok with hr | hr
  · rw [List.mem_map] at hr
    obtain ⟨b, hb, hba⟩ := hr
    obtain ⟨l1, l2, rfl⟩ := List.append_of_mem hb
    refine ⟨l1, b :: l2, rfl, ?_⟩
    rw [← hba]
    exact parse_at s.mem s.brk (s.heap_listp + 8) l1 b l2 h.parse_eq
  · exact ⟨L, [], by simp, by rw [hr, h.end_brk]⟩

/-- A non-NULL result of find_fit on a well-formed heap is the address of a
FREE block of the heap that is large enough. -/
theorem find_fit_hit (s : St) (L : List Blk) (asize : Nat) (h : WFwith s L)
    (hne : find_fit s asize s.brk ≠ 0) :
    ∃ b ∈ L, find_fit s asize s.brk = b.addr ∧ b.alloc = 0 ∧ asize ≤ b.size := by
  obtain ⟨L1, L2, rfl, hrov⟩ := rover_split s L h
  rw [find_fit_spec s L1 L2 asize h hrov] at hne ⊢
  by_cases hz : firstFit asize L2 = 0
  · rw [if_pos hz] at hne ⊢
    obtain ⟨b, hb, heq, hf⟩ := firstFit_mem asize L1 hne
    exact ⟨b, List.mem_append.2 (Or.inl hb), heq, hf⟩
  · rw [if_neg hz] at hne ⊢
    obtain ⟨b, hb, heq, hf⟩ := firstFit_mem asize L2 hne
    exact ⟨b, List.mem_append.2 (Or.inr hb), heq, hf⟩

theorem adjustSize_ge16 (size : Nat) : 16 ≤ adjustSize size := by
  simp only [adjustSize, DSIZE]
  split_ifs <;> omega

theorem adjustSize_ge (size : Nat) : size + 8 ≤ adjustSize size := by
  simp only [adjustSize, DSIZE]
  split_ifs <;> omega

theorem adjustSize_eq (size : Nat) (h : 1 ≤ size) :
    adjustSize size = 8 * ((size + 7) / 8) + 8 := by
  simp only [adjustSize, DSIZE]
  split_ifs <;> omega

set_option maxHeartbeats 800000 in
/-- mm_malloc on a well-formed heap with a nonzero request either fails with a
NULL pointer and a still well-formed heap, or returns the address of an
ALLOCATED block whose size is at least the adjusted request; in both cases all
previously allocated blocks survive. -/
theorem mm_malloc_WF (s : St) (L : List Blk) (size : Nat)
    (h : WFwith s L) (h0 : ¬ (size = 0)) :
    ((mm_malloc s size).1 = 0 ∧ ∃ L1, WFwith (mm_malloc s size).2 L1 ∧
        (∀ x ∈ L, x.alloc = 1 → x ∈ L1)) ∨
    (∃ pre1 post1 c, WFwith (mm_malloc s size).2 (pre1 ++ c :: post1) ∧
        (mm_malloc s size).1 = c.addr ∧ c.alloc = 1 ∧ adjustSize size ≤ c.size ∧
        (∀ x ∈ L, x.alloc = 1 → x ∈ pre1 ++ post1)) := by
  by_cases hbp : find_fit s (adjustSize size) s.brk ≠ 0
  · -- next-fit hit: place into the found FREE block
    obtain ⟨b, hb, hfound, hfree, hble⟩ := find_fit_hit s L (adjustSize size) h hbp
    obtain ⟨l1, l2, rfl⟩ := List.append_of_mem hb
    have heq : mm_malloc s size = (b.addr, place s b.addr (adjustSize size)) := by
      simp only [mm_malloc]
      rw [if_neg h0, if_pos hbp, hfound]
    obtain ⟨post2, sz, hszle, hWF2⟩ :=
      place_WF s l1 l2 b (adjustSize size) h hfree (adjustSize_ge16 size)
        (adjustSize_align size) hble
    right
    refine ⟨l1, post2 ++ l2, { addr := b.addr, size := sz, alloc := 1 }, ?_, ?_, rfl,
      hszle, ?_⟩
    · rw [heq]
      exact hWF2
    · rw [heq]
    · intro x hx h1
      rcases List.mem_append.1 hx with hx1 | hx2
      · exact List.mem_append.2 (Or.inl hx1)
      · rcases List.mem_cons.1 hx2 with rfl | hx3
        · omega
        · exact List.mem_append.2 (Or.inr (List.mem_append.2 (Or.inr hx3)))
  · -- miss: extend the heap, then place (or fail)
    have hfit0 : find_fit s (adjustSize size) s.brk = 0 := by
      by_contra hc
      exact hbp hc
    have ext8 : max (adjustSize size) CHUNKSIZE % 8 = 0 := by
      have h1 := adjustSize_align size
      simp only [CHUNKSIZE]
      omega
    by_cases hsucc : s.brk + max (adjustSize size) CHUNKSIZE ≤ s.maxAddr
    · -- provider succeeds
      obtain ⟨pre', post', c', hWF', hret', hcfree, hcsize, hpres'⟩ :=
        extend_heap_WF s L (max (adjustSize size) CHUNKSIZE / WSIZE)
          (max (adjustSize size) CHUNKSIZE)
          (by simp only [WSIZE]; exact (div_mul_even _ ext8).symm)
          h.pre h.noadj (by simp only [CHUNKSIZE]; omega) hsucc
      have hclo : 24 ≤ c'.addr := by
        have h1 := parse_lo _ _ _ _ hWF'.pre.parse_eq c' (by simp)
        have h2 := hWF'.hl_lo
        omega
      have heq : mm_malloc s size =
          (c'.addr, place (extend_heap s (max (adjustSize size) CHUNKSIZE / WSIZE)).1
            c'.addr (adjustSize size)) := by
        simp only [mm_malloc]
        rw [if_neg h0, if_neg hbp]
        rcases hE : extend_heap s (max (adjustSize size) CHUNKSIZE / WSIZE) with ⟨s1, bp1⟩
        rw [hE] at hret'
        simp only at hret'
        simp only [hret']
        rw [if_neg (by omega)]
      obtain ⟨post2, sz, hszle, hWF2⟩ :=
        place_WF _ pre' post' c' (adjustSize size) hWF' hcfree (adjustSize_ge16 size)
          (adjustSize_align size) (le_trans (Nat.le_max_left _ _) hcsize)
      right
      refine ⟨pre', post2 ++ post', { addr := c'.addr, size := sz, alloc := 1 }, ?_, ?_,
        rfl, hszle, ?_⟩
      · rw [heq]
        exact hWF2
      · rw [heq]
      · intro x hx h1
        have h2 := hpres' x hx h1
        rcases List.mem_append.1 h2 with hx1 | hx2
        · exact List.mem_append.2 (Or.inl hx1)
        · exact List.mem_append.2 (Or.inr (List.mem_append.2 (Or.inr hx2)))
    · -- provider refuses: mm_malloc returns NULL with the state unchanged
      have hfail := mm_malloc_fail_eq s size h0 hfit0 (by omega)
      rw [hfail]
      exact Or.inl ⟨rfl, L, h, fun x hx _ => hx⟩
theorem GET_memcpy_outside (m : Mem) (dst src n r : Nat)
    (h : r + 4 ≤ dst ∨ dst + n ≤ r) :
    GET (memcpy m dst src n) r = GET m r := by
  simp only [GET]
  rw [memcpy_outside _ _ _ _ _ (by omega), memcpy_outside _ _ _ _ _ (by omega),
    memcpy_outside _ _ _ _ _ (by omega), memcpy_outside _ _ _ _ _ (by omega)]

set_option maxHeartbeats 800000 in
/-- Copying at most `size − 8` payload bytes into an allocated block touches no
header or footer, so the heap stays well-formed with the same block list. -/
theorem memcpy_WF (s : St) (pre post : List Blk) (c : Blk) (src n : Nat)
    (h : WFwith s (pre ++ c :: post)) (hn : n + 8 ≤ c.size) :
    WFwith { s with mem := memcpy s.mem c.addr src n } (pre ++ c :: post) := by
  have hP := h.pre
  have hmb := parse_mid_bounds s pre post c hP
  have hfir := hP.hl_lo
  have hcf := parse_facts s.mem _ _ _ hP.parse_eq c (by simp)
  have h16 : 16 ≤ c.size := hcf.2.2.1
  have hag : ∀ b ∈ pre ++ c :: post,
      GET (memcpy s.mem c.addr src n) (b.addr - 4) = GET s.mem (b.addr - 4) ∧
      GET (memcpy s.mem c.addr src n) (b.addr + b.size - 8)
        = GET s.mem (b.addr + b.size - 8) := by
    intro b hbmem
    have hbf := parse_facts s.mem _ _ _ hP.parse_eq b hbmem
    rcases List.mem_append.1 hbmem with hb1 | hb2
    · have hbb := hmb.2.1 b hb1
      constructor
      · exact GET_memcpy_outside _ _ _ _ _ (by omega)
      · exact GET_memcpy_outside _ _ _ _ _ (by omega)
    · rcases List.mem_cons.1 hb2 with rfl | hb3
      · have hbb := hmb.2.2.2.1
        constructor
        · exact GET_memcpy_outside _ _ _ _ _ (by omega)
        · exact GET_memcpy_outside _ _ _ _ _ (by omega)
      · have hbb := hmb.2.2.1 b hb3
        have hcb := hmb.2.2.2.1
        constructor
        · exact GET_memcpy_outside _ _ _ _ _ (by omega)
        · exact GET_memcpy_outside _ _ _ _ _ (by omega)
  refine ⟨h.hl_align, h.hl_lo, ?_, ?_, ?_, h.end_brk, h.noadj, h.rover_ok, h.brk_le,
    h.max_lt⟩
  · show GET _ (s.heap_listp - 4) = 9
    rw [GET_memcpy_outside _ _ _ _ _ (by omega)]
    exact h.pro_hdr
  · show GET _ s.heap_listp = 9
    rw [GET_memcpy_outside _ _ _ _ _ (by omega)]
    exact h.pro_ftr
  · show parseBlocks _ s.brk (s.heap_listp + 8) = some _
    refine parse_congr s.mem _ _ s.brk _ h.parse_eq hag ?_
    rw [h.end_brk]
    have hce := hmb.2.2.2.2.1
    exact GET_memcpy_outside _ _ _ _ _ (by omega)

set_option maxHeartbeats 800000 in
/-- mm_realloc with a non-NULL pointer to an allocated block and a nonzero size
leaves the heap well-formed, whether or not the internal allocation succeeds. -/
theorem mm_realloc_WF (s : St) (pre post : List Blk) (b : Blk) (size : Nat)
    (h : WFwith s (pre ++ b :: post)) (halloc : b.alloc = 1) (h0 : ¬ (size = 0)) :
    ∃ L1, WFwith (mm_realloc s b.addr size).2 L1 := by
  have hblo := parse_lo s.mem _ _ _ h.pre.parse_eq b (by simp)
  have hfir := h.pre.hl_lo
  have hb0 : ¬ (b.addr = 0) := by
    have := hblo.1
    omega
  rcases mm_malloc_WF s (pre ++ b :: post) size h h0 with
    ⟨hz, L1, hWF1, hpres1⟩ | ⟨pre1, post1, c, hWF1, hp, hcalloc, hcsz, hpres1⟩
  · -- internal allocation failed: realloc returns NULL, heap unchanged
    rcases hM : mm_malloc s size with ⟨p, s1⟩
    rw [hM] at hz hWF1
    simp only at hz hWF1
    subst hz
    have heq : mm_realloc s b.addr size = (0, s1) := by
      simp only [mm_realloc, hM]
      rw [if_neg hb0, if_neg h0]
      simp
    refine ⟨L1, ?_⟩
    rw [heq]
    exact hWF1
  · -- internal allocation succeeded: copy the payload, free the old block
    rcases hM : mm_malloc s size with ⟨p, s1⟩
    rw [hM] at hp hWF1
    simp only at hp hWF1
    subst hp
    have hc24 : 24 ≤ c.addr := by
      have h1 := parse_lo _ _ _ _ hWF1.pre.parse_eq c (by simp)
      have h2 := hWF1.pre.hl_lo
      omega
    have heq : mm_realloc s b.addr size = (c.addr,
        mm_free { s1 with
          mem := (memcpy s1.mem c.addr b.addr
            (if size < GET_SIZE s1.mem (HDRP b.addr) - DSIZE then size
             else GET_SIZE s1.mem (HDRP b.addr) - DSIZE)) } b.addr) := by
      simp only [mm_realloc, hM]
      rw [if_neg hb0, if_neg h0, if_neg (by omega)]
    have hWFm := memcpy_WF s1 pre1 post1 c b.addr
      (if size < GET_SIZE s1.mem (HDRP b.addr) - DSIZE then size
       else GET_SIZE s1.mem (HDRP b.addr) - DSIZE) hWF1
      (by
        have := adjustSize_ge size
        split_ifs <;> omega)
    have hbin : b ∈ pre1 ++ c :: post1 := by
      have h2 := hpres1 b (by simp) halloc
      rcases List.mem_append.1 h2 with h3 | h3
      · exact List.mem_append.2 (Or.inl h3)
      · exact List.mem_append.2 (Or.inr (List.mem_cons_of_mem _ h3))
    obtain ⟨l1, l2, hsplit⟩ := List.append_of_mem hbin
    rw [hsplit] at hWFm
    obtain ⟨pre2, post2, c2, hWF3, hc2, hpres3⟩ := mm_free_WF _ l1 l2 b hWFm halloc
    refine ⟨pre2 ++ c2 :: post2, ?_⟩
    rw [heq]
    exact hWF3

/-- The first block of a well-formed heap starts right after the prologue. -/
theorem head_addr (s : St) (x : Blk) (xs : List Blk) (h : PreWF s (x :: xs)) :
    x.addr = s.heap_listp + 8 := by
  have h1 := parse_at s.mem s.brk (s.heap_listp + 8) [] x xs (by simpa using h.parse_eq)
  simpa [endAddr] using h1

set_option maxHeartbeats 800000 in
/-- mm_init on a fresh 8-aligned provider region either fails or produces a
well-formed heap. -/
theorem mm_init_WF (s : St) (hal : s.brk % 8 = 0) (hlo : 8 ≤ s.brk)
    (hmax : s.maxAddr + 8 < 4294967296) (hinit : (mm_init s).2 = true) :
    ∃ L, WFwith (mm_init s).1 L := by
  by_cases h1 : s.brk + 16 ≤ s.maxAddr
  · have hsbrk : mem_sbrk s (4 * WSIZE)
        = some (s.brk, { s with brk := s.brk + 4 * WSIZE }) := by
      simp only [mem_sbrk]
      rw [if_pos (by simp only [WSIZE]; omega)]
    rcases hE : extend_heap { s with
        mem := (PUT (PUT (PUT (PUT s.mem s.brk 0) (s.brk + 4) 9) (s.brk + 8) 9)
          (s.brk + 12) 1),
        brk := s.brk + 16, heap_listp := s.brk + 8 } (CHUNKSIZE / WSIZE) with ⟨s3, r⟩
    have heq : mm_init s = (if r = 0 then (s3, false)
        else ({ s3 with rover := NEXT_BLKP s3.mem s3.heap_listp }, true)) := by
      simp only [mm_init, hsbrk,
        show ∀ x : Nat, x + 0 * WSIZE = x from fun x => by simp [WSIZE],
        show ∀ x : Nat, x + 1 * WSIZE = x + 4 from fun x => by simp [WSIZE],
        show ∀ x : Nat, x + 2 * WSIZE = x + 8 from fun x => by simp [WSIZE],
        show ∀ x : Nat, x + 3 * WSIZE = x + 12 from fun x => by simp [WSIZE],
        show ∀ x : Nat, x + 4 * WSIZE = x + 16 from fun x => by simp [WSIZE],
        show PACK DSIZE 1 = 9 from by decide,
        show PACK 0 1 = 1 from by decide, hE]
    by_cases hr : r = 0
    · rw [heq, if_pos hr] at hinit
      simp at hinit
    · rw [heq, if_neg hr]
      by_cases hsucc : s.brk + 16 + CHUNKSIZE ≤ s.maxAddr
      · have hpre2 : PreWF { s with
            mem := (PUT (PUT (PUT (PUT s.mem s.brk 0) (s.brk + 4) 9) (s.brk + 8) 9)
              (s.brk + 12) 1),
            brk := s.brk + 16, heap_listp := s.brk + 8 } [] := by
          refine ⟨?_, ?_, ?_, ?_, ?_, ?_, ?_, ?_⟩
          · show (s.brk + 8) % 8 = 0
            omega
          · show 16 ≤ s.brk + 8
            omega
          · show GET _ (s.brk + 8 - 4) = 9
            rw [show s.brk + 8 - 4 = s.brk + 4 from by omega,
              GET_PUT_ne _ _ _ _ (by omega), GET_PUT_ne _ _ _ _ (by omega),
              GET_PUT_same]
          · show GET _ (s.brk + 8) = 9
            rw [GET_PUT_ne _ _ _ _ (by omega), GET_PUT_same]
          · show parseBlocks _ (s.brk + 16) (s.brk + 8 + 8) = some []
            refine parse_fuel_mono _ [] 1 (s.brk + 16) _ ?_ (by omega)
            refine parse_nil_intro _ 0 (s.brk + 8 + 8) ?_
            rw [show s.brk + 8 + 8 - 4 = s.brk + 12 from by omega, GET_PUT_same]
          · show endAddr (s.brk + 8 + 8) [] = s.brk + 16
            simp [endAddr]
          · show s.brk + 16 ≤ s.maxAddr
            omega
          · show s.maxAddr + 8 < 4294967296
            exact hmax
        obtain ⟨pre', post', c', hWF3, hret', hcfree, hcsize, hpres'⟩ :=
          extend_heap_WF _ [] (CHUNKSIZE / WSIZE) CHUNKSIZE
            (by simp only [CHUNKSIZE, WSIZE]; norm_num)
            hpre2 (by simp [NoTwoFree]) (by simp only [CHUNKSIZE]; omega)
            (by show s.brk + 16 + CHUNKSIZE ≤ s.maxAddr; exact hsucc)
        rw [hE] at hWF3 hret'
        simp only at hWF3 hret'
        have hnext : NEXT_BLKP s3.mem s3.heap_listp = s3.heap_listp + 8 := by
          simp only [NEXT_BLKP, HDRP, WSIZE, GET_SIZE]
          rw [hWF3.pro_hdr]
        refine ⟨pre' ++ c' :: post', ?_⟩
        refine ⟨hWF3.hl_align, hWF3.hl_lo, hWF3.pro_hdr, hWF3.pro_ftr, hWF3.parse_eq,
          hWF3.end_brk, hWF3.noadj, ?_, hWF3.brk_le, hWF3.max_lt⟩
        show NEXT_BLKP s3.mem s3.heap_listp ∈ _ ∨ _
        left
        rw [hnext]
        rcases pre' with _ | ⟨x, pre''⟩
        · have hx := head_addr s3 c' post' (by simpa using hWF3.pre)
          rw [← hx]
          simp
        · have hx := head_addr s3 x (pre'' ++ c' :: post') (by simpa using hWF3.pre)
          rw [← hx]
          simp
      · have hfail := extend_heap_fail { s with
            mem := (PUT (PUT (PUT (PUT s.mem s.brk 0) (s.brk + 4) 9) (s.brk + 8) 9)
              (s.brk + 12) 1),
            brk := s.brk + 16, heap_listp := s.brk + 8 } CHUNKSIZE
          (by simp only [CHUNKSIZE])
          (by show s.maxAddr < s.brk + 16 + CHUNKSIZE; omega)
        rw [hE] at hfail
        simp only [Prod.mk.injEq] at hfail
        exact absurd hfail.2 hr
  · have heqf : mm_init s = (s, false) := by
      simp only [mm_init, mem_sbrk]
      rw [if_neg (by simp only [WSIZE]; omega)]
    rw [heqf] at hinit
    simp at hinit
/-- A heap operation of the public interface: allocate, free, or resize. -/
inductive Op where
  | alloc (n : Nat)
  | free (p : Nat)
  | realloc (p n : Nat)

/-- Run one operation, keeping only the state. -/
def runOp (s : St) : Op → St
  | .alloc n => (mm_malloc s n).2
  | .free p => mm_free s p
  | .realloc p n => (mm_realloc s p n).2

/-- Run a sequence of operations. -/
def runSeq (s : St) : List Op → St
  | [] => s
  | op :: ops => runSeq (runOp s op) ops

/-- `p` is the payload address of an ALLOCATED block of the current heap. -/
def allocAt (s : St) (p : Nat) : Bool :=
  match parseBlocks s.mem s.brk (s.heap_listp + 8) with
  | none => false
  | some L => L.any (fun b => b.addr == p && b.alloc == 1)

/-- An operation is valid when any pointer it frees or resizes is NULL or the
payload address of a currently allocated block. -/
def validOp (s : St) : Op → Bool
  | .alloc _ => true
  | .free p => p == 0 || allocAt s p
  | .realloc p _ => p == 0 || allocAt s p

/-- A sequence of operations is valid when each operation is valid in the
state reached by its predecessors. -/
def validSeq (s : St) : List Op → Bool
  | [] => true
  | op :: ops => validOp s op && validSeq (runOp s op) ops

theorem allocAt_split (s : St) (L : List Blk) (p : Nat) (h : WFwith s L)
    (ha : allocAt s p = true) :
    ∃ l1 b l2, L = l1 ++ b :: l2 ∧ b.addr = p ∧ b.alloc = 1 := by
  simp only [allocAt, h.parse_eq, List.any_eq_true, Bool.and_eq_true, beq_iff_eq] at ha
  obtain ⟨b, hb, hpb⟩ := ha
  obtain ⟨l1, l2, rfl⟩ := List.append_of_mem hb
  exact ⟨l1, b, l2, rfl, hpb.1, hpb.2⟩

theorem WF_free (s : St) (L : List Blk) (p : Nat) (h : WFwith s L)
    (hv : (p == 0 || allocAt s p) = true) : ∃ L1, WFwith (mm_free s p) L1 := by
  rcases (by simpa using hv : p = 0 ∨ allocAt s p = true) with h0 | ha
  · subst h0
    refine ⟨L, ?_⟩
    simp only [mm_free, if_pos rfl]
    exact h
  · obtain ⟨l1, b, l2, rfl, hbp, hba⟩ := allocAt_split s L p h ha
    subst hbp
    obtain ⟨pre2, post2, c2, hWF2, hfr, hpres⟩ := mm_free_WF s l1 l2 b h hba
    exact ⟨pre2 ++ c2 :: post2, hWF2⟩

/-- A valid operation keeps the heap well-formed. -/
theorem WF_runOp (s : St) (op : Op) (h : ∃ L, WFwith s L)
    (hv : validOp s op = true) : ∃ L1, WFwith (runOp s op) L1 := by
  obtain ⟨L, hL⟩ := h
  cases op with
  | alloc n =>
    show ∃ L1, WFwith (mm_malloc s n).2 L1
    by_cases h0 : n = 0
    · subst h0
      refine ⟨L, ?_⟩
      simp only [mm_malloc, if_pos rfl]
      exact hL
    · rcases mm_malloc_WF s L n hL h0 with ⟨_, L1, hWF1, _⟩ |
        ⟨pre1, post1, c, hWF1, _, _, _, _⟩
      · exact ⟨L1, hWF1⟩
      · exact ⟨pre1 ++ c :: post1, hWF1⟩
  | free p =>
    exact WF_free s L p hL (by simpa [validOp] using hv)
  | realloc p n =>
    show ∃ L1, WFwith (mm_realloc s p n).2 L1
    by_cases hp : p = 0
    · subst hp
      have heq : mm_realloc s 0 n = mm_malloc s n := by
        simp [mm_realloc]
      rw [heq]
      by_cases h0 : n = 0
      · subst h0
        refine ⟨L, ?_⟩
        simp only [mm_malloc, if_pos rfl]
        exact hL
      · rcases mm_malloc_WF s L n hL h0 with ⟨_, L1, hWF1, _⟩ |
          ⟨pre1, post1, c, hWF1, _, _, _, _⟩
        · exact ⟨L1, hWF1⟩
        · exact ⟨pre1 ++ c :: post1, hWF1⟩
    · have hv2 : (p == 0 || allocAt s p) = true := by simpa [validOp] using hv
      by_cases h0 : n = 0
      · subst h0
        have heq : (mm_realloc s p 0).2 = mm_free s p := by
          simp [mm_realloc, hp]
        rw [heq]
        exact WF_free s L p hL hv2
      · rcases (by simpa using hv2 : p = 0 ∨ allocAt s p = true) with hpp | ha
        · exact absurd hpp hp
        · obtain ⟨l1, b, l2, rfl, hbp, hba⟩ := allocAt_split s L p hL ha
          subst hbp
          exact mm_realloc_WF s l1 l2 b n hL hba h0

/-- A valid sequence of operations keeps the heap well-formed. -/
theorem validSeq_WF (ops : List Op) : ∀ (s : St), (∃ L, WFwith s L) →
    validSeq s ops = true → ∃ L, WFwith (runSeq s ops) L := by
  induction ops with
  | nil =>
    intro s h _
    simpa [runSeq] using h
  | cons op ops ih =>
    intro s h hv
    simp only [validSeq, Bool.and_eq_true] at hv
    simp only [runSeq]
    exact ih (runOp s op) (WF_runOp s op h hv.1) hv.2
/-- C1: after mm_init succeeds on a fresh 8-aligned provider region, any valid
sequence of allocate/free/resize calls (each freed or resized pointer being
NULL or a currently allocated block's payload address) leaves a heap whose
block sequence parses and contains no two adjacent FREE blocks: the coalescing
invariant holds after each operation completes. -/
theorem C1_coalescing_invariant (s : St) (ops : List Op)
    (hal : s.brk % 8 = 0) (hlo : 8 ≤ s.brk) (hmax : s.maxAddr + 8 < 4294967296)
    (hinit : (mm_init s).2 = true)
    (hops : validSeq (mm_init s).1 ops = true) :
    ∃ L, parseBlocks (runSeq (mm_init s).1 ops).mem (runSeq (mm_init s).1 ops).brk
        ((runSeq (mm_init s).1 ops).heap_listp + 8) = some L ∧ NoTwoFree L := by
  obtain ⟨L, hL⟩ := validSeq_WF ops (mm_init s).1 (mm_init_WF s hal hlo hmax hinit) hops
  exact ⟨L, hL.parse_eq, hL.noadj⟩

def c1s0 : St :=
  { mem := fun _ => 0, brk := 8, maxAddr := 8000, heap_listp := 0, rover := 0 }

def c1ops : List Op := [Op.alloc 100, Op.realloc 24 40, Op.free 136]

theorem C1_witness :
    ∃ L, parseBlocks (runSeq (mm_init c1s0).1 c1ops).mem
        (runSeq (mm_init c1s0).1 c1ops).brk
        ((runSeq (mm_init c1s0).1 c1ops).heap_listp + 8) = some L ∧ NoTwoFree L :=
  C1_coalescing_invariant c1s0 c1ops (by decide) (by decide) (by decide) (by decide)
    (by decide)

/-- C3: allocate(0) returns NULL; the adjusted block size is the request
rounded up to the 8-byte alignment unit plus 8 bytes of tag overhead, never
below the 16-byte minimum; and a successful allocation of a nonzero size
returns an 8-aligned payload pointer to an ALLOCATED block whose usable
payload (block size minus the 8 tag bytes) is at least the request. -/
theorem C3_malloc_contract (s : St) (L : List Blk) (size : Nat)
    (h : WFwith s L) (h0 : ¬ (size = 0)) (hne : ¬ ((mm_malloc s size).1 = 0)) :
    (mm_malloc s 0).1 = 0 ∧
    adjustSize size = 8 * ((size + 7) / 8) + 8 ∧ 16 ≤ adjustSize size ∧
    (mm_malloc s size).1 % 8 = 0 ∧
    ∃ pre1 post1 c, WFwith (mm_malloc s size).2 (pre1 ++ c :: post1) ∧
      (mm_malloc s size).1 = c.addr ∧ c.alloc = 1 ∧ adjustSize size ≤ c.size ∧
      size ≤ c.size - 8 := by
  rcases mm_malloc_WF s L size h h0 with ⟨hz, _⟩ |
    ⟨pre1, post1, c, hWF1, hp, hca, hcs, _⟩
  · exact absurd hz hne
  · have hal8 : c.addr % 8 = 0 := by
      have h1 := parse_lo _ _ _ _ hWF1.pre.parse_eq c (by simp)
      have h2 := hWF1.pre.hl_align
      omega
    refine ⟨by simp [mm_malloc], adjustSize_eq size (by omega), adjustSize_ge16 size,
      ?_, pre1, post1, c, hWF1, hp, hca, hcs, ?_⟩
    · rw [hp]
      exact hal8
    · have := adjustSize_ge size
      omega

theorem C3_witness :
    (mm_malloc reallocWitnessSt 0).1 = 0 ∧
    adjustSize 20 = 8 * ((20 + 7) / 8) + 8 ∧ 16 ≤ adjustSize 20 ∧
    (mm_malloc reallocWitnessSt 20).1 % 8 = 0 ∧
    ∃ pre1 post1 c, WFwith (mm_malloc reallocWitnessSt 20).2 (pre1 ++ c :: post1) ∧
      (mm_malloc reallocWitnessSt 20).1 = c.addr ∧ c.alloc = 1 ∧
      adjustSize 20 ≤ c.size ∧ 20 ≤ c.size - 8 :=
  C3_malloc_contract reallocWitnessSt
    [{ addr := 24, size := 16, alloc := 1 }, { addr := 40, size := 32, alloc := 0 }] 20
    (by refine ⟨by decide, by decide, by decide, by decide, by decide, by decide, ?_,
      by decide, by decide, by decide⟩
        simp [NoTwoFree])
    (by decide) (by decide)
end MallocLab
